import Mathlib

/-!
Verification of the ipldstore storage core against its natural-language
specification.

The development shallowly embeds the Python sources:

* `src/ipldstore/fbl.py` — the balanced chunker (`from_bytes`, `balanced`,
  `read`) — in the `Fbl` namespace;
* `src/ipldstore/contentstore.py` — the content-addressable store,
  `to_car` / `import_car` and `iter_links` — in the `ContentStore` namespace;
* `src/ipfs_zarr_store/ipldstore.py` — `IPFSZarrStore.getitems` — in the
  `ZarrStore` namespace;
* `src/ipldstore/ipldstore.py` — the HAMT-backed `IPLDStore` mapping with its
  read-only flag and lock — in the `HamtStore` and `IterModel` namespaces.

Bytes are modelled as `List Nat`, Python `int` as `Int`/`Nat`, Python `None`
via `Option`, and exceptions via `Option`/explicit result types.  Content
identifiers (CIDs) are modelled in normalized form (base32, version 1) as a
codec tag plus a digest; hashing and the dag-cbor value codec are external
libraries for the Python code and enter the model as explicit function
parameters.
-/

namespace Fbl

mutual

/-- A chunk-tree node: the *content* a CID resolves to.  A leaf is a raw-codec
block holding a byte span; an interior node is a dag-cbor block holding an
ordered list of `(length, child)` links, exactly the `[length, cid]` pairs
built by `balanced` in `fbl.py`.  Because a CID is determined by the block
content, the fetch function of `read` is modelled as the identity that
resolves each link directly to the child node. -/
inductive Node where
  | leaf : List Nat → Node
  | node : Entries → Node

/-- The `(length, child)` link list of an interior node (`Node.node`). -/
inductive Entries where
  | nil : Entries
  | cons : Nat → Node → Entries → Entries

end

mutual

/-- The byte span covered by a subtree: leaf bytes in order. -/
def Node.spans : Node → List Nat
  | .leaf d => d
  | .node es => es.spansOf

/-- The byte span covered by a link list, children concatenated in order. -/
def Entries.spansOf : Entries → List Nat
  | .nil => []
  | .cons _ t rest => t.spans ++ rest.spansOf

end

/-- The recorded lengths of a link list, in order. -/
def Entries.lens : Entries → List Nat
  | .nil => []
  | .cons l _ rest => l :: rest.lens

/-- Link-list conversion from the `List` form used while building trees. -/
def Entries.ofList : List (Nat × Node) → Entries
  | [] => .nil
  | (l, t) :: rest => .cons l t (Entries.ofList rest)

/-- Number of links of an interior block; `0` for a leaf.  Used to state the
fan-out bound. -/
def Node.fanout : Node → Nat
  | .leaf _ => 0
  | .node es => es.lens.length

/-- Python slice `xs[off:end]` for a non-negative start `off`, with `end`
either absent (`none`), non-negative, or negative (counted from the end of the
list), as in `fbl.py`'s `read`. -/
def pySlice (xs : List Nat) (off : Nat) (e : Option Int) : List Nat :=
  match e with
  | none => xs.drop off
  | some v =>
      (xs.take (if v < 0 then ((xs.length : Int) + v).toNat else v.toNat)).drop off

/-- The loop guard `if end and total_length > end` of `read`: Python truthiness
makes `end == 0` behave like `None` here. -/
def cutoffHit (e : Option Int) (total : Nat) : Bool :=
  match e with
  | none => false
  | some v => v != 0 && decide ((total : Int) > v)

/-- The translated end `end - total_length` passed to the recursive call of
`read` (`None` stays `None`). -/
def shiftEnd (e : Option Int) (total : Nat) : Option Int :=
  e.map (fun v => v - (total : Int))

mutual

/-- `read(cid, get, offset, end)` from `fbl.py`, with the fetch function
resolving a leaf CID to its raw bytes and an interior CID to its decoded
`(length, child)` list.  `Entries.readLinks` is the `for (length, sub_cid)`
loop with its running `total_length`; the offset passed down is
`(offset - total_length) if offset > total_length else 0`. -/
def Node.read : Node → Nat → Option Int → List Nat
  | .leaf d, off, e => pySlice d off e
  | .node es, off, e => es.readLinks off e 0

/-- The body of `read`'s loop over an interior node's `(length, sub_cid)` list. -/
def Entries.readLinks : Entries → Nat → Option Int → Nat → List Nat
  | .nil, _, _, _ => []
  | .cons l t rest, off, e, total =>
      if cutoffHit e total then []
      else t.read (if total < off then off - total else 0) (shiftEnd e total)
            ++ rest.readLinks off e (total + l)

end

/-- `math.ceil(a / b)` on natural numbers, as used by `balanced`. -/
def cdiv (a b : Nat) : Nat := (a + b - 1) / b

theorem le_cdiv_mul (n k : Nat) (hk : 1 ≤ k) : n ≤ cdiv n k * k := by
  unfold cdiv
  rw [Nat.mul_comm]
  have h1 := Nat.div_add_mod (n + k - 1) k
  have h2 := Nat.mod_lt (n + k - 1) (show 0 < k by omega)
  omega

theorem cdiv_le (n k m : Nat) (hk : 1 ≤ k) (h : n ≤ m * k) : cdiv n k ≤ m := by
  unfold cdiv
  have hx : (m + 1) * k = m * k + k := by ring
  have : n + k - 1 < (m + 1) * k := by omega
  have := (Nat.div_lt_iff_lt_mul (show 0 < k by omega)).mpr this
  omega

theorem cdiv_pos (n k : Nat) (hn : 1 ≤ n) (hk : 1 ≤ k) : 1 ≤ cdiv n k := by
  unfold cdiv
  rw [Nat.le_div_iff_mul_le (show 0 < k by omega)]
  omega

/-- Consecutive chunks of `size` elements (the last possibly shorter), i.e.
the `parts[:size]` / `parts[size:]` loop of `balanced` and the
`input_bytes[i:i+sub_chunk_length]` loop of `from_bytes`.  `size = 0` (which
makes the Python loop diverge or `range` raise) is given the junk value
`[l]`; every theorem below assumes a positive size. -/
def chunked : List α → Nat → List (List α)
  | l, 0 => [l]
  | [], _ + 1 => []
  | a :: l, s + 1 => (a :: l).take (s + 1) :: chunked ((a :: l).drop (s + 1)) (s + 1)
termination_by l _ => l.length
decreasing_by simp; omega

theorem chunked_length_le {α : Type} (s : Nat) (g : List α) (l : List α)
    (hs : 1 ≤ s) (hg : g ∈ chunked l s) : g.length ≤ s := by
  match l, s with
  | l, 0 => omega
  | [], s + 1 => simp [chunked] at hg
  | a :: l, s + 1 =>
      rw [chunked] at hg
      rcases List.mem_cons.mp hg with h | h
      · subst h; simp
      · exact chunked_length_le (s + 1) g _ hs h
termination_by l.length
decreasing_by simp; omega

theorem chunked_join {α : Type} (s : Nat) (l : List α) (hs : 1 ≤ s) :
    (chunked l s).flatten = l := by
  match l, s with
  | l, 0 => omega
  | [], s + 1 => simp [chunked]
  | a :: l, s + 1 =>
      rw [chunked]
      simp only [List.flatten_cons]
      rw [chunked_join (s + 1) _ hs]
      exact List.take_append_drop _ _
termination_by l.length
decreasing_by simp; omega

theorem chunked_sublist {α : Type} (s : Nat) (g : List α) (l : List α)
    (hs : 1 ≤ s) (hg : g ∈ chunked l s) : g.Sublist l := by
  match l, s with
  | l, 0 => omega
  | [], s + 1 => simp [chunked] at hg
  | a :: l, s + 1 =>
      rw [chunked] at hg
      rcases List.mem_cons.mp hg with h | h
      · subst h; exact List.take_sublist _ _
      · exact (chunked_sublist (s + 1) g _ hs h).trans (List.drop_sublist _ _)
termination_by l.length
decreasing_by simp; omega

theorem chunked_ne_nil {α : Type} (s : Nat) (g : List α) (l : List α)
    (hs : 1 ≤ s) (hg : g ∈ chunked l s) : g ≠ [] := by
  match l, s with
  | l, 0 => omega
  | [], s + 1 => simp [chunked] at hg
  | a :: l, s + 1 =>
      rw [chunked] at hg
      rcases List.mem_cons.mp hg with h | h
      · subst h; simp
      · exact chunked_ne_nil (s + 1) g _ hs h
termination_by l.length
decreasing_by simp; omega

theorem chunked_length_bound {α : Type} (s : Nat) (l : List α) (m : Nat)
    (hs : 1 ≤ s) (h : l.length ≤ m * s) : (chunked l s).length ≤ m := by
  match l, s with
  | l, 0 => omega
  | [], s + 1 => simp [chunked]
  | a :: l, s + 1 =>
      rw [chunked]
      have hm : 1 ≤ m := by
        by_contra hm
        have : m = 0 := by omega
        subst this
        simp at h
      have hlen : (List.drop (s + 1) (a :: l)).length ≤ (m - 1) * (s + 1) := by
        have hx : m * (s + 1) = (m - 1) * (s + 1) + (s + 1) := by
          cases m with
          | zero => omega
          | succ m => simp [Nat.succ_sub_one]; ring
        simp only [List.length_drop] at *
        omega
      have := chunked_length_bound (s + 1) _ (m - 1) hs hlen
      simp only [List.length_cons]
      omega
termination_by l.length
decreasing_by simp; omega

/-- `balanced(parts, hasher, codec, limit)` from `fbl.py`, returning the root
node (the final block the generator yields).  With more than `limit` parts it
groups them into consecutive chunks of `size = ceil(len / ceil(len / limit))`
parts, builds one subtree per chunk (whose root is the last block of the
recursive generator), and wraps the `(chunk length sum, chunk root)` pairs in a
single node — the grouping is *not* repeated on the resulting pairs.
`limit = 0` (a `ZeroDivisionError` in Python) is given a junk value and
excluded by hypothesis in every theorem. -/
def balanced (parts : List (Nat × Node)) (limit : Nat) : Node :=
  if h0 : limit = 0 then Node.node (Entries.ofList parts)
  else if h : limit < parts.length then
    Node.node (Entries.ofList
      ((chunked parts (cdiv parts.length (cdiv parts.length limit))).attach.map
        (fun ⟨g, hg⟩ => ((g.map Prod.fst).sum, balanced g limit))))
  else Node.node (Entries.ofList parts)
termination_by parts.length
decreasing_by
  have hk1 : 1 ≤ cdiv parts.length limit :=
    cdiv_pos _ _ (by omega) (by omega)
  have hsz1 : 1 ≤ cdiv parts.length (cdiv parts.length limit) :=
    cdiv_pos _ _ (by omega) hk1
  have hszle : cdiv parts.length (cdiv parts.length limit) ≤ limit :=
    cdiv_le _ _ _ hk1 (by rw [Nat.mul_comm]; exact le_cdiv_mul _ _ (by omega))
  have := chunked_length_le _ _ _ hsz1 hg
  omega

/-- The full block stream the generator `balanced` yields, in yield order: for
each chunk, the recursive stream, then the final wrapping node.  The last
element is `balanced parts limit`. -/
def balancedBlocks (parts : List (Nat × Node)) (limit : Nat) : List Node :=
  if h0 : limit = 0 then [Node.node (Entries.ofList parts)]
  else if h : limit < parts.length then
    ((chunked parts (cdiv parts.length (cdiv parts.length limit))).attach.map
      (fun ⟨g, hg⟩ => balancedBlocks g limit)).flatten
    ++ [balanced parts limit]
  else [Node.node (Entries.ofList parts)]
termination_by parts.length
decreasing_by
  have hk1 : 1 ≤ cdiv parts.length limit :=
    cdiv_pos _ _ (by omega) (by omega)
  have hsz1 : 1 ≤ cdiv parts.length (cdiv parts.length limit) :=
    cdiv_pos _ _ (by omega) hk1
  have hszle : cdiv parts.length (cdiv parts.length limit) ≤ limit :=
    cdiv_le _ _ _ hk1 (by rw [Nat.mul_comm]; exact le_cdiv_mul _ _ (by omega))
  have := chunked_length_le _ _ _ hsz1 hg
  omega

/-- The `(length, leaf)` pairs accumulated by the leaf loop of `from_bytes`:
one raw leaf per consecutive `sub_chunk_length`-byte slice of the input. -/
def leafParts (input : List Nat) (subChunkLength : Nat) : List (Nat × Node) :=
  (chunked input subChunkLength).map (fun c => (c.length, Node.leaf c))

/-- `from_bytes(input_bytes, sub_chunk_length)` from `fbl.py`, returning the
root: the last block yielded, i.e. the result of `balanced` on the leaf parts.
The fan-out limit is `balanced`'s `limit` parameter (default 1000). -/
def fromBytes (input : List Nat) (subChunkLength limit : Nat) : Node :=
  balanced (leafParts input subChunkLength) limit

/-- The full block stream `from_bytes` yields: the raw leaves in input order,
then the stream of `balanced`. -/
def fromBytesBlocks (input : List Nat) (subChunkLength limit : Nat) : List Node :=
  (chunked input subChunkLength).map Node.leaf
    ++ balancedBlocks (leafParts input subChunkLength) limit

/-- Prefix-domination, relative to `total` bytes already accounted for: each
recorded length is at most the sum of everything before it (or nothing
precedes it at all).  This is what makes the `end == 0` truthiness hole in
`read`'s guard harmless. -/
def DomFrom : Nat → List Nat → Prop
  | _, [] => True
  | total, l :: rest => (total = 0 ∨ l ≤ total) ∧ DomFrom (total + l) rest

theorem domFrom_of_le (lens : List Nat) : ∀ total : Nat,
    (∀ x ∈ lens, x ≤ total) → DomFrom total lens := by
  induction lens with
  | nil => intro total _; trivial
  | cons l rest ih =>
      intro total h
      refine ⟨Or.inr (h l (by simp)), ih (total + l) ?_⟩
      intro x hx
      have := h x (by simp [hx])
      omega

theorem domFrom_of_pairwise (lens : List Nat)
    (h : lens.Pairwise (· ≥ ·)) : DomFrom 0 lens := by
  cases lens with
  | nil => trivial
  | cons l rest =>
      rcases List.pairwise_cons.mp h with ⟨h1, _⟩
      exact ⟨Or.inl rfl, by simpa using domFrom_of_le rest l h1⟩

mutual

/-- Well-formedness of a chunk tree: every link records the byte length of its
child, and the recorded lengths at each node are non-increasing — which is how
`from_bytes`/`balanced` lay out leaves (all full except the last) and groups
(all full except the last). -/
def Node.wf : Node → Prop
  | .leaf _ => True
  | .node es => es.wfLinks ∧ es.lens.Pairwise (· ≥ ·)

/-- Well-formedness of each link of a link list. -/
def Entries.wfLinks : Entries → Prop
  | .nil => True
  | .cons l t rest => l = t.spans.length ∧ t.wf ∧ rest.wfLinks

end

theorem pySlice_none (d : List Nat) (off : Nat) :
    pySlice d off none = d.drop off := rfl

theorem pySlice_nonneg (d : List Nat) (off : Nat) (v : Int) (hv : 0 ≤ v) :
    pySlice d off (some v) = (d.take v.toNat).drop off := by
  show (d.take (if v < 0 then ((d.length : Int) + v).toNat else v.toNat)).drop off
      = (d.take v.toNat).drop off
  rw [if_neg (by omega)]

theorem pySlice_past (d : List Nat) (off : Nat) (v : Int) (hv : v < 0)
    (h : (d.length : Int) + v ≤ (off : Int)) :
    pySlice d off (some v) = [] := by
  show (d.take (if v < 0 then ((d.length : Int) + v).toNat else v.toNat)).drop off = []
  rw [if_pos hv]
  apply List.drop_eq_nil_of_le
  have h1 : ((d.length : Int) + v).toNat ≤ off := by omega
  calc (d.take ((d.length : Int) + v).toNat).length
      ≤ ((d.length : Int) + v).toNat := by simp
    _ ≤ off := h1

theorem cutoff_none (total : Nat) : cutoffHit none total = false := rfl

theorem cutoff_some (v : Int) (total : Nat) :
    cutoffHit (some v) total = (v != 0 && decide ((total : Int) > v)) := rfl

theorem offShift (total off : Nat) :
    (if total < off then off - total else 0) = off - total := by
  split <;> omega

mutual

/-- Behaviour of `read` on a well-formed subtree, for every offset: with no
end it returns the suffix; with a positive end it returns the Python slice;
with a zero or suitably negative end it returns nothing. -/
theorem Node.read_correct : ∀ t : Node, t.wf → ∀ off : Nat,
    (t.read off none = t.spans.drop off)
    ∧ (∀ v : Int, 1 ≤ v → t.read off (some v) = (t.spans.take v.toNat).drop off)
    ∧ (∀ v : Int, v ≤ 0 → (v = 0 ∨ (t.spans.length : Int) + v ≤ (off : Int)) →
        t.read off (some v) = [])
  | .leaf d, _, off => by
      refine ⟨pySlice_none d off, fun v hv => pySlice_nonneg d off v (by omega), ?_⟩
      intro v hv h
      rcases lt_or_eq_of_le hv with hlt | heq
      · rcases h with h | h
        · omega
        · simpa [Node.spans] using pySlice_past d off v hlt h
      · subst heq
        show pySlice d off (some 0) = []
        rw [pySlice_nonneg d off 0 le_rfl]
        simp
  | .node es, hwf, off => by
      have hes : es.wfLinks ∧ es.lens.Pairwise (· ≥ ·) := by
        simpa [Node.wf] using hwf
      have ih := Entries.readLinks_correct es hes.1
      refine ⟨?_, ?_, ?_⟩
      · simpa [Node.read, Node.spans] using (ih off 0).1
      · intro v hv
        have := (ih off 0).2.1 v hv
        simpa [Node.read, Node.spans] using this
      · intro v hv h
        rcases lt_or_eq_of_le hv with hlt | heq
        · simpa [Node.read] using (ih off 0).2.2.2 v hlt
        · subst heq
          have hdom := domFrom_of_pairwise es.lens hes.2
          simpa [Node.read] using (ih off 0).2.2.1 hdom

/-- Behaviour of the `read` loop over a link list, relative to the running
`total_length`. -/
theorem Entries.readLinks_correct : ∀ es : Entries, es.wfLinks →
    ∀ off total : Nat,
    (es.readLinks off none total = es.spansOf.drop (off - total))
    ∧ (∀ v : Int, 1 ≤ v → es.readLinks off (some v) total
        = (es.spansOf.take ((v - (total : Int)).toNat)).drop (off - total))
    ∧ (DomFrom total es.lens → es.readLinks off (some 0) total = [])
    ∧ (∀ v : Int, v < 0 → es.readLinks off (some v) total = [])
  | .nil, _, off, total => by
      refine ⟨?_, ?_, ?_, ?_⟩ <;> simp [Entries.readLinks, Entries.spansOf]
  | .cons l t rest, hwf, off, total => by
      have hw : l = t.spans.length ∧ t.wf ∧ rest.wfLinks := by
        simpa [Entries.wfLinks] using hwf
      obtain ⟨hl, hwt, hwr⟩ := hw
      subst hl
      have iht := Node.read_correct t hwt
      have ihr := Entries.readLinks_correct rest hwr
      refine ⟨?_, ?_, ?_, ?_⟩
      · -- end is None
        have hcut : cutoffHit none total = false := rfl
        simp only [Entries.readLinks, hcut, Bool.false_eq_true, if_false,
          offShift, shiftEnd, Option.map_none', Entries.spansOf]
        rw [(iht (off - total)).1, (ihr off (total + t.spans.length)).1,
          List.drop_append_eq_append_drop]
        congr 2
        omega
      · -- positive end
        intro v hv
        by_cases hc : (total : Int) > v
        · have hcut : cutoffHit (some v) total = true := by
            simp [cutoffHit]
            omega
          have hm : (v - (total : Int)).toNat = 0 := by omega
          simp [Entries.readLinks, hcut, hm]
        · have hcut : cutoffHit (some v) total = false := by
            simp [cutoffHit]
            intro
            omega
          have hfirst : t.read (off - total) (some (v - (total : Int)))
              = (t.spans.take ((v - (total : Int)).toNat)).drop (off - total) := by
            by_cases hm : 1 ≤ v - (total : Int)
            · exact (iht (off - total)).2.1 _ hm
            · have hv0 : v - (total : Int) = 0 := by omega
              rw [hv0, (iht (off - total)).2.2 0 le_rfl (Or.inl rfl)]
              simp
          simp only [Entries.readLinks, hcut, Bool.false_eq_true, if_false,
            offShift, shiftEnd, Option.map_some', Entries.spansOf]
          rw [hfirst, (ihr off (total + t.spans.length)).2.1 v hv,
            List.take_append_eq_append_take, List.drop_append_eq_append_drop]
          congr 1
          have htn : (v - ((total + t.spans.length : Nat) : Int)).toNat
              = (v - (total : Int)).toNat - t.spans.length := by
            push_cast
            omega
          rw [htn, List.length_take]
          by_cases hml : t.spans.length ≤ (v - (total : Int)).toNat
          · have hmin : min ((v - (total : Int)).toNat) t.spans.length
                = t.spans.length := by omega
            rw [hmin]
            congr 1
            omega
          · have h0 : (v - (total : Int)).toNat - t.spans.length = 0 := by omega
            rw [h0]
            simp
      · -- end == 0 (falsy guard)
        intro hdom
        have hd : (total = 0 ∨ t.spans.length ≤ total)
            ∧ DomFrom (total + t.spans.length) rest.lens := by
          simpa [Entries.lens, DomFrom] using hdom
        have hcut : cutoffHit (some 0) total = false := by
          simp [cutoffHit]
        have hfirst : t.read (off - total) (some ((0 : Int) - (total : Int)))
            = [] := by
          rcases hd.1 with h0 | hle
          · subst h0
            exact (iht (off - 0)).2.2 0 le_rfl (Or.inl (by norm_num))
          · apply (iht (off - total)).2.2 _ (by omega)
            right
            omega
        simp only [Entries.readLinks, hcut, Bool.false_eq_true, if_false,
          offShift, shiftEnd, Option.map_some']
        rw [hfirst, (ihr off (total + t.spans.length)).2.2.1 hd.2]
        simp
      · -- negative end
        intro v hv
        have hcut : cutoffHit (some v) total = true := by
          simp [cutoffHit]
          omega
        simp [Entries.readLinks, hcut]

end

theorem lens_ofList (parts : List (Nat × Node)) :
    (Entries.ofList parts).lens = parts.map Prod.fst := by
  induction parts with
  | nil => rfl
  | cons p rest ih =>
      obtain ⟨l, t⟩ := p
      simp [Entries.ofList, Entries.lens, ih]

theorem spansOf_ofList (parts : List (Nat × Node)) :
    (Entries.ofList parts).spansOf = (parts.map (fun p => p.2.spans)).flatten := by
  induction parts with
  | nil => rfl
  | cons p rest ih =>
      obtain ⟨l, t⟩ := p
      simp [Entries.ofList, Entries.spansOf, ih]

theorem wfLinks_ofList (parts : List (Nat × Node))
    (h : ∀ p ∈ parts, p.1 = p.2.spans.length ∧ p.2.wf) :
    (Entries.ofList parts).wfLinks := by
  induction parts with
  | nil => trivial
  | cons p rest ih =>
      obtain ⟨l, t⟩ := p
      have := h (l, t) (by simp)
      exact ⟨this.1, this.2, ih (fun q hq => h q (by simp [hq]))⟩

theorem sum_le_sum_of_le (B A : List Nat) (hlen : B.length ≤ A.length)
    (h : ∀ x ∈ B, ∀ y ∈ A, x ≤ y) : B.sum ≤ A.sum := by
  induction B generalizing A with
  | nil => simp
  | cons b B ih =>
      cases A with
      | nil => simp at hlen
      | cons a A =>
          simp only [List.sum_cons]
          have h1 : b ≤ a := h b (by simp) a (by simp)
          have h2 : B.sum ≤ A.sum := by
            apply ih A (by simpa using hlen)
            intro x hx y hy
            exact h x (by simp [hx]) y (by simp [hy])
          omega

theorem chunked_map {α β : Type} (f : α → β) (s : Nat) (l : List α) (hs : 1 ≤ s) :
    chunked (l.map f) s = (chunked l s).map (List.map f) := by
  match l, s with
  | l, 0 => omega
  | [], s + 1 => simp [chunked]
  | a :: l, s + 1 =>
      rw [show (a :: l).map f = f a :: l.map f from rfl, chunked, chunked]
      congr 1
      · rw [show f a :: l.map f = (a :: l).map f from rfl, ← List.map_take]
      · rw [show f a :: l.map f = (a :: l).map f from rfl, ← List.map_drop,
          chunked_map f (s + 1) _ hs]
termination_by l.length
decreasing_by simp; omega

theorem chunked_sums_pairwise (s : Nat) (l : List Nat) (hs : 1 ≤ s)
    (hp : l.Pairwise (· ≥ ·)) :
    ((chunked l s).map List.sum).Pairwise (· ≥ ·) := by
  match l, s with
  | l, 0 => omega
  | [], s + 1 => simp [chunked]
  | a :: l, s + 1 =>
      rw [chunked]
      simp only [List.map_cons, List.pairwise_cons]
      constructor
      · intro x hx
        rcases List.mem_map.mp hx with ⟨g, hg, rfl⟩
        have hdropne : List.drop (s + 1) (a :: l) ≠ [] := by
          intro hnil
          rw [hnil] at hg
          simp [chunked] at hg
        have hlong : s + 1 ≤ (a :: l).length := by
          by_contra hcon
          have : List.drop (s + 1) (a :: l) = [] :=
            List.drop_eq_nil_of_le (by omega)
          exact hdropne this
        apply sum_le_sum_of_le
        · have h1 := chunked_length_le (s + 1) g _ hs hg
          simp only [List.length_take]
          omega
        · intro x hx y hy
          have hx' : x ∈ List.drop (s + 1) (a :: l) :=
            (chunked_sublist (s + 1) g _ hs hg).mem hx
          have hsplit := hp
          rw [← List.take_append_drop (s + 1) (a :: l), List.pairwise_append]
            at hsplit
          exact hsplit.2.2 y hy x hx'
      · apply chunked_sums_pairwise (s + 1) _ hs
        exact hp.sublist (List.drop_sublist _ _)
termination_by l.length
decreasing_by simp; omega

theorem chunked_lens_pairwise {α : Type} (s : Nat) (l : List α) (hs : 1 ≤ s) :
    ((chunked l s).map List.length).Pairwise (· ≥ ·) := by
  match l, s with
  | l, 0 => omega
  | [], s + 1 => simp [chunked]
  | a :: l, s + 1 =>
      rw [chunked]
      simp only [List.map_cons, List.pairwise_cons]
      constructor
      · intro x hx
        rcases List.mem_map.mp hx with ⟨g, hg, rfl⟩
        have hdropne : List.drop (s + 1) (a :: l) ≠ [] := by
          intro hnil
          rw [hnil] at hg
          simp [chunked] at hg
        have hlong : s + 1 ≤ (a :: l).length := by
          by_contra hcon
          have : List.drop (s + 1) (a :: l) = [] :=
            List.drop_eq_nil_of_le (by omega)
          exact hdropne this
        have h1 := chunked_length_le (s + 1) g _ hs hg
        simp only [List.length_take]
        omega
      · exact chunked_lens_pairwise (s + 1) _ hs
termination_by l.length
decreasing_by simp; omega

theorem flatten_map_flatten {α : Type} (M : List (List (List α))) :
    (M.map List.flatten).flatten = M.flatten.flatten := by
  induction M with
  | nil => rfl
  | cons g M ih => simp [ih]

/-- Trees built by `balanced` from well-formed, non-increasing parts are
well-formed, and their span is the concatenation of the parts' spans. -/
theorem balanced_wf (limit : Nat) (parts : List (Nat × Node)) (hlim : 1 ≤ limit)
    (hp : ∀ p ∈ parts, p.1 = p.2.spans.length ∧ p.2.wf)
    (hpw : (parts.map Prod.fst).Pairwise (· ≥ ·)) :
    (balanced parts limit).wf
    ∧ (balanced parts limit).spans = (parts.map (fun p => p.2.spans)).flatten := by
  rw [balanced, dif_neg (show ¬ limit = 0 by omega)]
  by_cases h : limit < parts.length
  case neg =>
    rw [dif_neg h]
    refine ⟨?_, ?_⟩
    · show (Node.node (Entries.ofList parts)).wf
      simp only [Node.wf]
      exact ⟨wfLinks_ofList parts hp, by rw [lens_ofList]; exact hpw⟩
    · show (Node.node (Entries.ofList parts)).spans = _
      simp only [Node.spans]
      exact spansOf_ofList parts
  case pos =>
    rw [dif_pos h]
    have hk1 : 1 ≤ cdiv parts.length limit := cdiv_pos _ _ (by omega) (by omega)
    have hsz1 : 1 ≤ cdiv parts.length (cdiv parts.length limit) :=
      cdiv_pos _ _ (by omega) hk1
    have hlist : ((chunked parts (cdiv parts.length (cdiv parts.length limit))).attach.map
        (fun ⟨g, hg⟩ => ((g.map Prod.fst).sum, balanced g limit)))
        = (chunked parts (cdiv parts.length (cdiv parts.length limit))).map
          (fun g => ((g.map Prod.fst).sum, balanced g limit)) := by
      exact List.attach_map_val _
        (fun g => ((g.map Prod.fst).sum, balanced g limit))
    rw [hlist]
    have hchunk : ∀ g ∈ chunked parts (cdiv parts.length (cdiv parts.length limit)),
        (balanced g limit).wf
        ∧ (balanced g limit).spans = (g.map (fun p => p.2.spans)).flatten := by
      intro g hg
      have hsub := chunked_sublist _ g _ hsz1 hg
      refine balanced_wf limit g hlim ?_ ?_
      · intro p hpmem
        exact hp p (hsub.mem hpmem)
      · exact hpw.sublist (hsub.map Prod.fst)
    refine ⟨?_, ?_⟩
    · show (Node.node _).wf
      simp only [Node.wf]
      constructor
      · apply wfLinks_ofList
        intro p hpmem
        rcases List.mem_map.mp hpmem with ⟨g, hg, rfl⟩
        have hcw := hchunk g hg
        refine ⟨?_, hcw.1⟩
        rw [hcw.2, List.length_flatten, List.map_map]
        dsimp only
        congr 1
        apply List.map_congr_left
        intro p hpmem2
        exact (hp p ((chunked_sublist _ g _ hsz1 hg).mem hpmem2)).1
      · rw [lens_ofList, List.map_map]
        have hmm : (Prod.fst ∘ fun g : List (Nat × Node) =>
            ((g.map Prod.fst).sum, balanced g limit))
            = fun g : List (Nat × Node) => (g.map Prod.fst).sum := rfl
        rw [hmm]
        have := chunked_sums_pairwise
          (cdiv parts.length (cdiv parts.length limit)) (parts.map Prod.fst)
          hsz1 hpw
        rw [chunked_map Prod.fst _ parts hsz1, List.map_map] at this
        exact this
    · show (Node.node _).spans = _
      simp only [Node.spans]
      rw [spansOf_ofList, List.map_map]
      have hmm : ((fun p : Nat × Node => p.2.spans) ∘ fun g : List (Nat × Node) =>
          ((g.map Prod.fst).sum, balanced g limit))
          = fun g : List (Nat × Node) => (balanced g limit).spans := rfl
      rw [hmm]
      have hcg : (chunked parts (cdiv parts.length (cdiv parts.length limit))).map
          (fun g => (balanced g limit).spans)
          = (chunked parts (cdiv parts.length (cdiv parts.length limit))).map
            (fun g => (g.map (fun p => p.2.spans)).flatten) :=
        List.map_congr_left (fun g hg => (hchunk g hg).2)
      rw [hcg]
      have hmm2 : (fun g : List (Nat × Node) => (g.map (fun p => p.2.spans)).flatten)
          = List.flatten ∘ List.map (fun p : Nat × Node => p.2.spans) := rfl
      rw [hmm2, ← List.map_map, flatten_map_flatten,
        ← chunked_map (fun p : Nat × Node => p.2.spans) _ parts hsz1,
        chunked_join _ _ hsz1]
termination_by parts.length
decreasing_by
  have hszle : cdiv parts.length (cdiv parts.length limit) ≤ limit :=
    cdiv_le _ _ _ hk1 (by rw [Nat.mul_comm]; exact le_cdiv_mul _ _ (by omega))
  have := chunked_length_le _ _ _ hsz1 hg
  omega

theorem leafParts_wf (input : List Nat) (L : Nat) :
    ∀ p ∈ leafParts input L, p.1 = p.2.spans.length ∧ p.2.wf := by
  intro p hpmem
  rcases List.mem_map.mp hpmem with ⟨c, _, rfl⟩
  exact ⟨rfl, trivial⟩

theorem leafParts_pairwise (input : List Nat) (L : Nat) (hL : 1 ≤ L) :
    ((leafParts input L).map Prod.fst).Pairwise (· ≥ ·) := by
  unfold leafParts
  rw [List.map_map]
  have hmm : (Prod.fst ∘ fun c : List Nat => (c.length, Node.leaf c))
      = List.length := rfl
  rw [hmm]
  exact chunked_lens_pairwise L input hL

theorem fromBytes_wf (input : List Nat) (L F : Nat) (hL : 1 ≤ L) (hF : 1 ≤ F) :
    (fromBytes input L F).wf ∧ (fromBytes input L F).spans = input := by
  have h := balanced_wf F (leafParts input L) hF
    (leafParts_wf input L) (leafParts_pairwise input L hL)
  refine ⟨h.1, ?_⟩
  rw [show fromBytes input L F = balanced (leafParts input L) F from rfl, h.2]
  unfold leafParts
  rw [List.map_map]
  have hmm : ((fun p : Nat × Node => p.2.spans) ∘ fun c : List Nat =>
      (c.length, Node.leaf c)) = id := by
    funext c
    rfl
  rw [hmm, List.map_id]
  exact chunked_join L input hL

/-- C1: for a blob `B` split by `from_bytes` with leaf length `L` and fan-out
limit `F`, and any `0 ≤ offset ≤ end ≤ B.length`, `read(root, offset, end)`
(with the fetch resolving leaf CIDs to bytes and interior CIDs to their
decoded link lists) returns exactly the Python slice `B[offset:end]`. -/
theorem chunker_range_read (B : List Nat) (L F off e : Nat)
    (hL : 1 ≤ L) (hF : 1 ≤ F) (h1 : off ≤ e) (h2 : e ≤ B.length) :
    (fromBytes B L F).read off (some (e : Int)) = (B.take e).drop off := by
  obtain ⟨hwf, hsp⟩ := fromBytes_wf B L F hL hF
  have hc := Node.read_correct (fromBytes B L F) hwf off
  by_cases he : 1 ≤ e
  · have := hc.2.1 (e : Int) (by exact_mod_cast he)
    rw [this, hsp]
    congr 1
  · have he0 : e = 0 := by omega
    subst he0
    have := hc.2.2 0 le_rfl (Or.inl rfl)
    rw [show ((0 : Nat) : Int) = (0 : Int) from rfl, this]
    simp

/-- Witness for C1 at a concrete boundary instance: `B` of length `F·L + 1 = 5`
with `L = 2`, `F = 2`, `offset = 1`, `end = 4`. -/
theorem chunker_range_read_witness :
    1 ≤ 2 ∧ 1 ≤ 2 ∧ 1 ≤ 4 ∧ 4 ≤ ([10, 20, 30, 40, 50] : List Nat).length
    ∧ (fromBytes [10, 20, 30, 40, 50] 2 2).read 1 (some (4 : Int))
        = (([10, 20, 30, 40, 50] : List Nat).take 4).drop 1 :=
  ⟨by decide, by decide, by decide, by decide,
    chunker_range_read [10, 20, 30, 40, 50] 2 2 1 4 (by decide) (by decide)
      (by decide) (by decide)⟩

/-- Unfolding equation for `balanced` with the `attach` bookkeeping removed. -/
theorem balanced_eq (parts : List (Nat × Node)) (limit : Nat) (h0 : ¬ limit = 0) :
    balanced parts limit = if limit < parts.length then
      Node.node (Entries.ofList
        ((chunked parts (cdiv parts.length (cdiv parts.length limit))).map
          (fun g => ((g.map Prod.fst).sum, balanced g limit))))
    else Node.node (Entries.ofList parts) := by
  rw [balanced, dif_neg h0]
  split
  case isTrue h =>
    congr 1
    congr 1
    exact List.attach_map_val _ (fun g => ((g.map Prod.fst).sum, balanced g limit))
  case isFalse h =>
    rfl

/-- Unfolding equation for `balancedBlocks` with the `attach` bookkeeping
removed. -/
theorem balancedBlocks_eq (parts : List (Nat × Node)) (limit : Nat)
    (h0 : ¬ limit = 0) :
    balancedBlocks parts limit = if limit < parts.length then
      ((chunked parts (cdiv parts.length (cdiv parts.length limit))).map
        (fun g => balancedBlocks g limit)).flatten
      ++ [balanced parts limit]
    else [Node.node (Entries.ofList parts)] := by
  rw [balancedBlocks, dif_neg h0]
  split
  case isTrue h =>
    congr 2
    exact List.attach_map_val _ (fun g => balancedBlocks g limit)
  case isFalse h =>
    rfl

/-- The root returned by `balanced` is the last block of its stream. -/
theorem balancedBlocks_getLast (parts : List (Nat × Node)) (limit : Nat)
    (h0 : ¬ limit = 0) :
    (balancedBlocks parts limit).getLast? = some (balanced parts limit) := by
  rw [balancedBlocks_eq parts limit h0, balanced_eq parts limit h0]
  split
  · exact List.getLast?_concat _
  · rfl

/-- Whether a block is a raw-codec leaf. -/
def Node.isLeaf : Node → Bool
  | .leaf _ => true
  | .node _ => false

theorem fromBytesBlocks_nil (L F : Nat) (hL : 1 ≤ L) (hF : 1 ≤ F) :
    fromBytesBlocks [] L F = [Node.node Entries.nil] := by
  match L with
  | L + 1 =>
      unfold fromBytesBlocks leafParts
      rw [show chunked ([] : List Nat) (L + 1) = [] from by rw [chunked]]
      rw [balancedBlocks_eq _ _ (by omega)]
      simp [Entries.ofList]

theorem node_fanout_ofList (l : List (Nat × Node)) :
    (Node.node (Entries.ofList l)).fanout = l.length := by
  simp [Node.fanout, lens_ofList]

/-- The five leaf parts of the 5-byte blob `[0,0,0,0,0]` at leaf length 1. -/
def fiveLeaves : List (Nat × Node) :=
  [(1, Node.leaf [0]), (1, Node.leaf [0]), (1, Node.leaf [0]),
    (1, Node.leaf [0]), (1, Node.leaf [0])]

theorem fiveLeaves_eq : leafParts [0, 0, 0, 0, 0] 1 = fiveLeaves := by
  unfold leafParts fiveLeaves
  rw [show chunked ([0, 0, 0, 0, 0] : List Nat) 1 = [[0], [0], [0], [0], [0]]
    from by simp [chunked]]
  rfl

theorem root_fanout_five : (fromBytes [0, 0, 0, 0, 0] 1 2).fanout = 3 := by
  unfold fromBytes
  rw [fiveLeaves_eq, balanced_eq _ _ (by norm_num),
    if_pos (by simp [fiveLeaves])]
  rw [show cdiv fiveLeaves.length (cdiv fiveLeaves.length 2) = 2 from by
    simp [fiveLeaves, cdiv]]
  rw [node_fanout_ofList, List.length_map,
    show chunked fiveLeaves 2
      = [[(1, Node.leaf [0]), (1, Node.leaf [0])],
          [(1, Node.leaf [0]), (1, Node.leaf [0])], [(1, Node.leaf [0])]] from by
    simp [fiveLeaves, chunked]]
  rfl

/-- C4 (counterexample): with fan-out limit `F = 2` and the 5-byte blob
`[0,0,0,0,0]` split at leaf length 1, the final block emitted by `balanced`
(the root) is an interior node with 3 > 2 link entries: a single grouping pass
is not enough when there are more than `F²` leaves. -/
theorem chunker_fanout_counterexample :
    (balancedBlocks (leafParts [0, 0, 0, 0, 0] 1) 2).getLast?
        = some (fromBytes [0, 0, 0, 0, 0] 1 2)
    ∧ (fromBytes [0, 0, 0, 0, 0] 1 2).fanout = 3
    ∧ ¬ ((fromBytes [0, 0, 0, 0, 0] 1 2).fanout ≤ 2) :=
  ⟨balancedBlocks_getLast _ _ (by norm_num), root_fanout_five,
    by rw [root_fanout_five]; omega⟩

/-- C4 (amended): every interior block emitted by `balanced` other than the
final root block has at most `F` entries; the root also does whenever the
number of parts is at most `F²` — the single grouping pass is not repeated, so
beyond `F²` leaves the root may exceed the bound. -/
theorem chunker_fanout_bound (parts : List (Nat × Node)) (limit : Nat)
    (hF : 1 ≤ limit) :
    (∀ b ∈ (balancedBlocks parts limit).dropLast, b.fanout ≤ limit)
    ∧ (parts.length ≤ limit * limit →
        ∀ b ∈ balancedBlocks parts limit, b.fanout ≤ limit) := by
  rw [balancedBlocks_eq _ _ (by omega)]
  by_cases h : limit < parts.length
  case neg =>
    rw [if_neg h]
    constructor
    · intro b hb
      simp [List.dropLast] at hb
    · intro _ b hb
      rcases List.mem_singleton.mp hb with rfl
      rw [node_fanout_ofList]
      omega
  case pos =>
    rw [if_pos h]
    have hk1 : 1 ≤ cdiv parts.length limit := cdiv_pos _ _ (by omega) (by omega)
    have hsz1 : 1 ≤ cdiv parts.length (cdiv parts.length limit) :=
      cdiv_pos _ _ (by omega) hk1
    have hszle : cdiv parts.length (cdiv parts.length limit) ≤ limit :=
      cdiv_le _ _ _ hk1 (by rw [Nat.mul_comm]; exact le_cdiv_mul _ _ (by omega))
    have hflat : ∀ b ∈ ((chunked parts
        (cdiv parts.length (cdiv parts.length limit))).map
          (fun g => balancedBlocks g limit)).flatten, b.fanout ≤ limit := by
      intro b hb
      rcases List.mem_flatten.mp hb with ⟨bs, hbs, hbmem⟩
      rcases List.mem_map.mp hbs with ⟨g, hg, rfl⟩
      have hgl := chunked_length_le _ g _ hsz1 hg
      rw [balancedBlocks_eq _ _ (by omega), if_neg (by omega)] at hbmem
      rcases List.mem_singleton.mp hbmem with rfl
      rw [node_fanout_ofList]
      omega
    constructor
    · intro b hb
      rw [List.dropLast_concat] at hb
      exact hflat b hb
    · intro hsq b hb
      rcases List.mem_append.mp hb with hb | hb
      · exact hflat b hb
      rcases List.mem_singleton.mp hb with rfl
      rw [balanced_eq _ _ (by omega), if_pos h, node_fanout_ofList,
        List.length_map]
      have hkle : cdiv parts.length limit ≤ limit :=
        cdiv_le _ _ _ (by omega) hsq
      have hb2 : parts.length ≤ cdiv parts.length limit *
          cdiv parts.length (cdiv parts.length limit) := by
        rw [Nat.mul_comm]
        exact le_cdiv_mul _ _ hk1
      have := chunked_length_bound _ parts (cdiv parts.length limit) hsz1 hb2
      omega

/-- Witness for C4's amended bound at `parts = leafParts [0] 1`, `F = 2`. -/
theorem chunker_fanout_bound_witness :
    1 ≤ 2
    ∧ ((∀ b ∈ (balancedBlocks (leafParts [0] 1) 2).dropLast, b.fanout ≤ 2)
        ∧ ((leafParts [0] 1).length ≤ 2 * 2 →
            ∀ b ∈ balancedBlocks (leafParts [0] 1) 2, b.fanout ≤ 2)) :=
  ⟨by decide, chunker_fanout_bound (leafParts [0] 1) 2 (by decide)⟩

/-- C6 (counterexample): splitting the empty byte string yields exactly one
block, but it is a dag-cbor interior node holding the empty link list — not a
raw-codec leaf with empty payload. -/
theorem chunker_empty_counterexample :
    fromBytesBlocks [] 128000 1000 = [Node.node Entries.nil]
    ∧ (Node.node Entries.nil).isLeaf = false :=
  ⟨fromBytesBlocks_nil 128000 1000 (by omega) (by omega), rfl⟩

/-- C6 (amended): splitting the empty byte string yields no leaf blocks and
exactly one block: the dag-cbor interior node with an empty link list, which
is also the root (the last block yielded). -/
theorem chunker_empty_split (L F : Nat) (hL : 1 ≤ L) (hF : 1 ≤ F) :
    fromBytesBlocks [] L F = [Node.node Entries.nil]
    ∧ (fromBytesBlocks [] L F).getLast? = some (fromBytes [] L F)
    ∧ fromBytes [] L F = Node.node Entries.nil := by
  have h1 := fromBytesBlocks_nil L F hL hF
  have h2 : fromBytes [] L F = Node.node Entries.nil := by
    unfold fromBytes leafParts
    match L, hL with
    | L + 1, _ =>
        rw [show chunked ([] : List Nat) (L + 1) = [] from by rw [chunked]]
        rw [show ([] : List (List Nat)).map
            (fun c => (c.length, Node.leaf c)) = [] from rfl]
        rw [balanced_eq _ _ (by omega), if_neg (by simp)]
        rfl
  exact ⟨h1, by rw [h1, h2]; rfl, h2⟩

/-- Witness for C6 at the default parameters `L = 128000`, `F = 1000`. -/
theorem chunker_empty_split_witness :
    1 ≤ 128000 ∧ 1 ≤ 1000
    ∧ (fromBytesBlocks [] 128000 1000 = [Node.node Entries.nil]
        ∧ (fromBytesBlocks [] 128000 1000).getLast?
            = some (fromBytes [] 128000 1000)
        ∧ fromBytes [] 128000 1000 = Node.node Entries.nil) :=
  ⟨by decide, by decide, chunker_empty_split 128000 1000 (by decide) (by decide)⟩

end Fbl

namespace ContentStore

/-- The two codecs `contentstore.py` can decode (`RawCodec`, `DagCborCodec`);
any other codec makes `get` raise. -/
inductive Codec where
  | raw : Codec
  | dagCbor : Codec
deriving DecidableEq

/-- The multicodec code of each codec (`raw = 0x55`, `dag-cbor = 0x71`). -/
def Codec.code : Codec → Nat
  | .raw => 0x55
  | .dagCbor => 0x71

/-- A CID in the store's normalized form (base32, version 1): its codec tag
and its digest bytes.  `MappingCAStore.normalize_cid` only renormalizes base
and version, so normalization is the identity on this representation, and the
string key `str(cid)` used by the mapping is injective on it, which lets the
model key mappings by `Cid` directly. -/
structure Cid where
  codec : Codec
  digest : List Nat
deriving DecidableEq

/-- Unsigned LEB128, the `varint.encode` of the multiformats library used by
`to_car`: 7-bit groups, least significant first, high bit = continuation. -/
def varintEncode (n : Nat) : List Nat :=
  if n < 128 then [n] else (n % 128 + 128) :: varintEncode (n / 128)
termination_by n
decreasing_by exact Nat.div_lt_self (by omega) (by omega)

/-- Varint decoding: the inverse direction used by `read_car`. -/
def parseVarint : List Nat → Option (Nat × List Nat)
  | [] => none
  | b :: rest =>
      if b < 128 then some (b, rest)
      else
        match parseVarint rest with
        | none => none
        | some (v, r) => some ((b - 128) + 128 * v, r)

theorem parseVarint_length : ∀ l : List Nat, ∀ v r,
    parseVarint l = some (v, r) → r.length < l.length := by
  intro l
  induction l with
  | nil => intro v r h; simp [parseVarint] at h
  | cons b rest ih =>
      intro v r h
      rw [parseVarint] at h
      split at h
      · have h' := Option.some.inj h
        have hr : rest = r := congrArg Prod.snd h'
        rw [← hr]
        simp
      · rcases hrec : parseVarint rest with _ | ⟨v', r'⟩
        · rw [hrec] at h; exact absurd h (by simp)
        · rw [hrec] at h
          have h' := Option.some.inj h
          have hr : r' = r := congrArg Prod.snd h'
          have := ih v' r' hrec
          rw [← hr]
          simp
          omega

theorem parseVarint_encode (n : Nat) : ∀ rest : List Nat,
    parseVarint (varintEncode n ++ rest) = some (n, rest) := by
  intro rest
  rw [varintEncode]
  split
  case isTrue h => simp [parseVarint, h]
  case isFalse h =>
      rw [List.cons_append, parseVarint, if_neg (by omega),
        parseVarint_encode (n / 128) rest]
      dsimp only
      have hdm := Nat.div_add_mod n 128
      have hx : n % 128 + 128 - 128 + 128 * (n / 128) = n := by omega
      rw [hx]
termination_by n
decreasing_by exact Nat.div_lt_self (by omega) (by omega)

/-- The byte form `bytes(cid)` of a CID: version varint, codec varint, then
the multihash (hash-function code, digest length, digest).  The digest comes
from the abstract hash parameter, so the hash-function code is a fixed
placeholder (`0x12`). -/
def cidBytes (c : Cid) : List Nat :=
  varintEncode 1 ++ varintEncode c.codec.code ++ varintEncode 18
    ++ varintEncode c.digest.length ++ c.digest

/-- The codec registry lookup used when parsing a CID. -/
def codecOfCode (n : Nat) : Option Codec :=
  if n = 0x55 then some Codec.raw
  else if n = 0x71 then some Codec.dagCbor
  else none

/-- Parsing a CID off the front of a byte string (CIDs are self-delimiting
inside a CAR frame). -/
def parseCid (l : List Nat) : Option (Cid × List Nat) :=
  match parseVarint l with
  | none => none
  | some (ver, r1) =>
      if ver = 1 then
        match parseVarint r1 with
        | none => none
        | some (cc, r2) =>
            match codecOfCode cc with
            | none => none
            | some codec =>
                match parseVarint r2 with
                | none => none
                | some (_, r3) =>
                    match parseVarint r3 with
                    | none => none
                    | some (dlen, r4) =>
                        if dlen ≤ r4.length then
                          some (⟨codec, r4.take dlen⟩, r4.drop dlen)
                        else none
      else none

theorem codecOfCode_code (c : Codec) : codecOfCode c.code = some c := by
  cases c <;> rfl

theorem parseCid_cidBytes (c : Cid) (rest : List Nat) :
    parseCid (cidBytes c ++ rest) = some (c, rest) := by
  unfold cidBytes parseCid
  simp only [List.append_assoc, parseVarint_encode, codecOfCode_code]
  simp [List.take_left, List.drop_left]

/-- A decoded dag-cbor value, as far as `iter_links` observes it: CIDs, maps,
sequences, and everything else (scalars, byte strings) as opaque leaves. -/
inductive Value where
  | cid : Cid → Value
  | scalar : List Nat → Value
  | arr : List Value → Value
  | dict : List (String × Value) → Value

mutual

/-- `iter_links(o)` from `contentstore.py`: yields every CID embedded anywhere
in a decoded value, recursing into map values and sequence elements in order. -/
def iterLinks : Value → List Cid
  | .cid c => [c]
  | .scalar _ => []
  | .arr vs => iterLinksArr vs
  | .dict kvs => iterLinksDict kvs

/-- `iter_links` over the elements of a sequence, in order. -/
def iterLinksArr : List Value → List Cid
  | [] => []
  | v :: vs => iterLinks v ++ iterLinksArr vs

/-- `iter_links` over the values of a map, in insertion order. -/
def iterLinksDict : List (String × Value) → List Cid
  | [] => []
  | (_, v) :: kvs => iterLinks v ++ iterLinksDict kvs

end

/-- A content-addressable store's block table: an association list from CID to
block bytes (the first binding wins, like a Python dict viewed through
`__getitem__`). -/
def lookupBlock : List (Cid × List Nat) → Cid → Option (List Nat)
  | [], _ => none
  | (k, v) :: rest, c => if k = c then some v else lookupBlock rest c

theorem lookupBlock_mem_keys (st : List (Cid × List Nat)) (c : Cid)
    (d : List Nat) (h : lookupBlock st c = some d) :
    c ∈ (st.map Prod.fst).toFinset := by
  induction st with
  | nil => simp [lookupBlock] at h
  | cons p rest ih =>
      rw [lookupBlock] at h
      split at h
      case isTrue heq => simp [← heq]
      case isFalse heq => simp [ih h]

/-- The framing of one block in a CAR stream, exactly the three writes of
`_to_car`: `varint(len(cid_bytes) + len(data)) + cid_bytes + data`. -/
def frameBytes (c : Cid) (d : List Nat) : List Nat :=
  varintEncode ((cidBytes c).length + d.length) ++ cidBytes c ++ d

/-- The depth-first block emission of `_to_car(root, stream, already_written)`
with the recursion linearized into an explicit worklist: processing `c` emits
its frame and pushes its children (links of the dag-cbor decoded payload, via
the decode parameter `dec`) in front of the remaining work, with `c` added to
the visited set — exactly the sequential visited-set threading of the Python
recursion. A missing block (`get_raw` raising) makes the whole export fail.
This version returns the `(cid, payload)` pairs emitted, in order. -/
def toCarFrames (dec : List Nat → Value) (st : List (Cid × List Nat)) :
    List Cid → Finset Cid → Option (List (Cid × List Nat))
  | [], _ => some []
  | c :: rest, visited =>
      if hnv : c ∈ visited then toCarFrames dec st rest visited
      else
        match hlk : lookupBlock st c with
        | none => none
        | some d =>
            match toCarFrames dec st
                ((if c.codec = Codec.dagCbor then iterLinks (dec d) else [])
                  ++ rest) (insert c visited) with
            | none => none
            | some fs => some ((c, d) :: fs)
termination_by w visited => (((st.map Prod.fst).toFinset \ visited).card, w.length)
decreasing_by
  · exact Prod.Lex.right _ (by simp)
  · apply Prod.Lex.left
    have hck : c ∈ (st.map Prod.fst).toFinset := lookupBlock_mem_keys st c d hlk
    rw [Finset.sdiff_insert]
    apply Finset.card_erase_lt_of_mem
    rw [Finset.mem_sdiff]
    exact ⟨hck, hnv⟩

/-- The byte stream of the same emission: the three `stream.write` calls per
block, concatenated in emission order. -/
def toCarBody (dec : List Nat → Value) (st : List (Cid × List Nat)) :
    List Cid → Finset Cid → Option (List Nat)
  | [], _ => some []
  | c :: rest, visited =>
      if hnv : c ∈ visited then toCarBody dec st rest visited
      else
        match hlk : lookupBlock st c with
        | none => none
        | some d =>
            match toCarBody dec st
                ((if c.codec = Codec.dagCbor then iterLinks (dec d) else [])
                  ++ rest) (insert c visited) with
            | none => none
            | some bs => some (frameBytes c d ++ bs)
termination_by w visited => (((st.map Prod.fst).toFinset \ visited).card, w.length)
decreasing_by
  · exact Prod.Lex.right _ (by simp)
  · apply Prod.Lex.left
    have hck : c ∈ (st.map Prod.fst).toFinset := lookupBlock_mem_keys st c d hlk
    rw [Finset.sdiff_insert]
    apply Finset.card_erase_lt_of_mem
    rw [Finset.mem_sdiff]
    exact ⟨hck, hnv⟩

/-- The CAR header bytes.  Models `dag_cbor.encode({"version": 1, "roots":
roots})` at the interface level (dag-cbor itself is an external library): an
unambiguous encoding from which the declared roots are recovered. -/
def carHeader (roots : List Cid) : List Nat :=
  varintEncode roots.length ++ (roots.map cidBytes).flatten

/-- `to_car(root)` in buffer mode: the varint-length-prefixed header followed
by the depth-first block frames. -/
def toCar (dec : List Nat → Value) (st : List (Cid × List Nat))
    (root : Cid) : Option (List Nat) :=
  match toCarBody dec st [root] ∅ with
  | none => none
  | some body =>
      some (varintEncode (carHeader [root]).length ++ carHeader [root] ++ body)

/-- Modelled from the spec: the repository's `car.read_car` (imported by
`contentstore.py` from the missing module `ipldstore/car.py`): parse the
declared roots out of the varint-length-prefixed header. -/
def parseCidsCount : Nat → List Nat → Option (List Cid × List Nat)
  | 0, l => some ([], l)
  | k + 1, l =>
      match parseCid l with
      | none => none
      | some (c, r) =>
          match parseCidsCount k r with
          | none => none
          | some (cs, r2) => some (c :: cs, r2)

/-- Modelled from the spec: header decoding of `read_car` — recover the root
list, i.e. the inverse of `carHeader`. -/
def parseHeader (l : List Nat) : Option (List Cid) :=
  match parseVarint l with
  | none => none
  | some (k, r) =>
      match parseCidsCount k r with
      | none => none
      | some (cs, rest) => if rest = [] then some cs else none

/-- Modelled from the spec: the varint-framed block sequence of `read_car`,
parsed in file order; each frame is split into its CID and its payload.  A
malformed length prefix or truncated frame is a fatal parse error. -/
def parseFrames (l : List Nat) : Option (List (Cid × List Nat)) :=
  if l = [] then some []
  else
    match hv : parseVarint l with
    | none => none
    | some (flen, r) =>
        if flen ≤ r.length then
          match parseCid (r.take flen) with
          | none => none
          | some (c, payload) =>
              match parseFrames (r.drop flen) with
              | none => none
              | some frames => some ((c, payload) :: frames)
        else none
termination_by l.length
decreasing_by
  have h1 := parseVarint_length _ _ _ hv
  have h2 : (List.drop flen r).length = r.length - flen := List.length_drop _ _
  omega

/-- Modelled from the spec: `read_car(stream_or_bytes)` from the missing
`ipldstore/car.py` — parse the header to recover the declared roots, then the
remaining varint-framed blocks in file order. -/
def readCar (input : List Nat) :
    Option (List Cid × List (Cid × List Nat)) :=
  match parseVarint input with
  | none => none
  | some (hlen, r) =>
      if hlen ≤ r.length then
        match parseHeader (r.take hlen) with
        | none => none
        | some roots =>
            match parseFrames (r.drop hlen) with
            | none => none
            | some blocks => some (roots, blocks)
      else none

/-- `MappingCAStore._mapping`, keyed by `str(normalized cid)`: since the
string form is injective on normalized CIDs, the model keys it by `Cid`. -/
def MapStore : Type := Cid → Option (List Nat)

/-- A fresh empty `MappingCAStore`. -/
def emptyStore : MapStore := fun _ => none

/-- `MappingCAStore.normalize_cid` re-encodes base and version only, which is
the identity on the normalized representation. -/
def normalizeCid (c : Cid) : Cid := c

/-- `MappingCAStore.put_raw`: hash the payload with the store's default hash
(the parameter `H`), build the version-1 CID with the given codec, store the
payload under it. -/
def putRaw (H : List Nat → List Nat) (m : MapStore) (raw : List Nat)
    (codec : Codec) : Cid × MapStore :=
  (⟨codec, H raw⟩, fun x => if x = ⟨codec, H raw⟩ then some raw else m x)

/-- `MappingCAStore.get_raw`: mapping lookup under the normalized CID;
`none` models the `KeyError` for an absent block. -/
def getRaw (m : MapStore) (c : Cid) : Option (List Nat) :=
  m (normalizeCid c)

/-- `import_car(stream_or_bytes)`: `read_car`, normalize the roots, `put_raw`
every block (under the codec its CID carries) in file order, return the
normalized roots. -/
def importCar (H : List Nat → List Nat) (m : MapStore) (input : List Nat) :
    Option (List Cid × MapStore) :=
  match readCar input with
  | none => none
  | some (roots, blocks) =>
      some (roots.map normalizeCid,
        blocks.foldl (fun acc cd => (putRaw H acc cd.2 cd.1.codec).2) m)

/-- Reachability from `root` by following the CIDs embedded in decoded
dag-cbor blocks, exactly the edges `_to_car` follows. -/
inductive Reach (dec : List Nat → Value) (st : List (Cid × List Nat))
    (root : Cid) : Cid → Prop where
  | refl : Reach dec st root root
  | step {c c' : Cid} {d : List Nat} : Reach dec st root c →
      lookupBlock st c = some d → c.codec = Codec.dagCbor →
      c' ∈ iterLinks (dec d) → Reach dec st root c'

theorem toCarFrames_cons (dec : List Nat → Value) (st : List (Cid × List Nat))
    (c : Cid) (rest : List Cid) (visited : Finset Cid) :
    toCarFrames dec st (c :: rest) visited =
      if c ∈ visited then toCarFrames dec st rest visited
      else
        match lookupBlock st c with
        | none => none
        | some d =>
            match toCarFrames dec st
                ((if c.codec = Codec.dagCbor then iterLinks (dec d) else [])
                  ++ rest) (insert c visited) with
            | none => none
            | some fs => some ((c, d) :: fs) := by
  rw [toCarFrames.eq_def]
  dsimp only
  by_cases h : c ∈ visited
  · rw [dif_pos h, if_pos h]
  · rw [dif_neg h, if_neg h]
    rcases hlk : lookupBlock st c with _ | d <;> simp [hlk]

theorem toCarBody_cons (dec : List Nat → Value) (st : List (Cid × List Nat))
    (c : Cid) (rest : List Cid) (visited : Finset Cid) :
    toCarBody dec st (c :: rest) visited =
      if c ∈ visited then toCarBody dec st rest visited
      else
        match lookupBlock st c with
        | none => none
        | some d =>
            match toCarBody dec st
                ((if c.codec = Codec.dagCbor then iterLinks (dec d) else [])
                  ++ rest) (insert c visited) with
            | none => none
            | some bs => some (frameBytes c d ++ bs) := by
  rw [toCarBody.eq_def]
  dsimp only
  by_cases h : c ∈ visited
  · rw [dif_pos h, if_pos h]
  · rw [dif_neg h, if_neg h]
    rcases hlk : lookupBlock st c with _ | d <;> simp [hlk]

/-- The invariants of the depth-first emission: every emitted pair is a stored
block not previously visited; CIDs are emitted at most once; every CID on the
worklist ends up visited or emitted; and every link out of an emitted dag-cbor
block lands in the visited set or among the emitted CIDs. -/
theorem toCarFrames_spec (dec : List Nat → Value) (st : List (Cid × List Nat)) :
    ∀ (w : List Cid) (V : Finset Cid) (fs : List (Cid × List Nat)),
    toCarFrames dec st w V = some fs →
      (∀ p ∈ fs, lookupBlock st p.1 = some p.2 ∧ p.1 ∉ V)
      ∧ (fs.map Prod.fst).Nodup
      ∧ (∀ c ∈ w, c ∈ V ∨ c ∈ fs.map Prod.fst)
      ∧ (∀ p ∈ fs, p.1.codec = Codec.dagCbor →
          ∀ c' ∈ iterLinks (dec p.2), c' ∈ V ∨ c' ∈ fs.map Prod.fst) := by
  intro w V
  induction w, V using toCarFrames.induct dec st with
  | case1 V =>
      intro fs hsome
      rw [toCarFrames.eq_def] at hsome
      rcases Option.some.inj hsome with rfl
      exact ⟨by simp, by simp, by simp, by simp⟩
  | case2 c rest visited hin ih =>
      intro fs hsome
      rw [toCarFrames_cons, if_pos hin] at hsome
      obtain ⟨hs, hn, hc, hcl⟩ := ih fs hsome
      refine ⟨hs, hn, ?_, hcl⟩
      intro x hx
      rcases List.mem_cons.mp hx with rfl | hx
      · exact Or.inl hin
      · exact hc x hx
  | case3 c rest visited hnv hlk =>
      intro fs hsome
      rw [toCarFrames_cons, if_neg hnv, hlk] at hsome
      dsimp only at hsome
      exact absurd hsome (by simp)
  | case4 c rest visited hnv d hlk hinner ih =>
      intro fs hsome
      simp only [dite_eq_ite] at hinner
      rw [toCarFrames_cons, if_neg hnv, hlk] at hsome
      dsimp only at hsome
      rw [hinner] at hsome
      exact absurd hsome (by simp)
  | case5 c rest visited hnv d hlk fs' hinner ih =>
      intro fs hsome
      simp only [dite_eq_ite] at hinner ih
      rw [toCarFrames_cons, if_neg hnv, hlk] at hsome
      dsimp only at hsome
      rw [hinner] at hsome
      dsimp only at hsome
      rcases Option.some.inj hsome with rfl
      obtain ⟨hs, hn, hc, hcl⟩ := ih fs' hinner
      have hcfs' : c ∉ fs'.map Prod.fst := by
        intro hmem
        rcases List.mem_map.mp hmem with ⟨p, hp, hpc⟩
        exact (hs p hp).2 (by rw [hpc]; exact Finset.mem_insert_self c visited)
      refine ⟨?_, ?_, ?_, ?_⟩
      · intro p hp
        rcases List.mem_cons.mp hp with rfl | hp
        · exact ⟨hlk, hnv⟩
        · obtain ⟨h1, h2⟩ := hs p hp
          exact ⟨h1, fun hmem => h2 (Finset.mem_insert_of_mem hmem)⟩
      · simp only [List.map_cons, List.nodup_cons]
        exact ⟨hcfs', hn⟩
      · intro x hx
        rcases List.mem_cons.mp hx with rfl | hx
        · exact Or.inr (by simp)
        · rcases hc x (by simp [hx]) with hv | hm
          · rcases Finset.mem_insert.mp hv with rfl | hv
            · exact Or.inr (by simp)
            · exact Or.inl hv
          · exact Or.inr (by simp [hm])
      · intro p hp hcodec c' hc'
        rcases List.mem_cons.mp hp with rfl | hp
        · have hc'w : c' ∈ (if Cid.codec c = Codec.dagCbor
              then iterLinks (dec d) else []) ++ rest := by
            rw [if_pos hcodec]
            simp [hc']
          rcases hc c' hc'w with hv | hm
          · rcases Finset.mem_insert.mp hv with rfl | hv
            · exact Or.inr (by simp)
            · exact Or.inl hv
          · exact Or.inr (by simp [hm])
        · rcases hcl p hp hcodec c' hc' with hv | hm
          · rcases Finset.mem_insert.mp hv with rfl | hv
            · exact Or.inr (by simp)
            · exact Or.inl hv
          · exact Or.inr (by simp [hm])

/-- A store is link-closed when every CID embedded in a stored dag-cbor block
resolves to a stored block. -/
def LinkClosed (dec : List Nat → Value) (st : List (Cid × List Nat)) : Prop :=
  ∀ c d, lookupBlock st c = some d → c.codec = Codec.dagCbor →
    ∀ c' ∈ iterLinks (dec d), ∃ d', lookupBlock st c' = some d'

/-- On a link-closed store, the export succeeds as long as everything on the
worklist is stored (or already visited). -/
theorem toCarFrames_total (dec : List Nat → Value) (st : List (Cid × List Nat))
    (hclosed : LinkClosed dec st) :
    ∀ (w : List Cid) (V : Finset Cid),
    (∀ c ∈ w, (∃ d, lookupBlock st c = some d) ∨ c ∈ V) →
    ∃ fs, toCarFrames dec st w V = some fs := by
  intro w V
  induction w, V using toCarFrames.induct dec st with
  | case1 V =>
      intro _
      exact ⟨[], by rw [toCarFrames.eq_def]⟩
  | case2 c rest visited hin ih =>
      intro hw
      rw [toCarFrames_cons, if_pos hin]
      exact ih (fun x hx => hw x (by simp [hx]))
  | case3 c rest visited hnv hlk =>
      intro hw
      rcases hw c (by simp) with ⟨d, hd⟩ | hv
      · rw [hd] at hlk; exact absurd hlk (by simp)
      · exact absurd hv hnv
  | case4 c rest visited hnv d hlk hinner ih =>
      intro hw
      simp only [dite_eq_ite] at hinner ih
      exfalso
      have hw' : ∀ x ∈ (if c.codec = Codec.dagCbor then iterLinks (dec d)
          else []) ++ rest, (∃ d', lookupBlock st x = some d') ∨ x ∈ insert c visited := by
        intro x hx
        rcases List.mem_append.mp hx with hx | hx
        · split at hx
          · exact Or.inl (hclosed c d hlk (by assumption) x hx)
          · simp at hx
        · rcases hw x (by simp [hx]) with h | h
          · exact Or.inl h
          · exact Or.inr (Finset.mem_insert_of_mem h)
      rcases ih hw' with ⟨fs, hfs⟩
      rw [hinner] at hfs
      exact absurd hfs (by simp)
  | case5 c rest visited hnv d hlk fs' hinner ih =>
      intro hw
      simp only [dite_eq_ite] at hinner
      refine ⟨(c, d) :: fs', ?_⟩
      rw [toCarFrames_cons, if_neg hnv, hlk]
      dsimp only
      rw [hinner]

/-- Everything the export emits is reachable from the CIDs on the worklist. -/
theorem toCarFrames_reach (dec : List Nat → Value) (st : List (Cid × List Nat))
    (root : Cid) :
    ∀ (w : List Cid) (V : Finset Cid) (fs : List (Cid × List Nat)),
    toCarFrames dec st w V = some fs →
    (∀ c ∈ w, Reach dec st root c) →
    ∀ p ∈ fs, Reach dec st root p.1 := by
  intro w V
  induction w, V using toCarFrames.induct dec st with
  | case1 V =>
      intro fs hsome _
      rw [toCarFrames.eq_def] at hsome
      rcases Option.some.inj hsome with rfl
      simp
  | case2 c rest visited hin ih =>
      intro fs hsome hw
      rw [toCarFrames_cons, if_pos hin] at hsome
      exact ih fs hsome (fun x hx => hw x (by simp [hx]))
  | case3 c rest visited hnv hlk =>
      intro fs hsome _
      rw [toCarFrames_cons, if_neg hnv, hlk] at hsome
      dsimp only at hsome
      exact absurd hsome (by simp)
  | case4 c rest visited hnv d hlk hinner ih =>
      intro fs hsome _
      simp only [dite_eq_ite] at hinner
      rw [toCarFrames_cons, if_neg hnv, hlk] at hsome
      dsimp only at hsome
      rw [hinner] at hsome
      exact absurd hsome (by simp)
  | case5 c rest visited hnv d hlk fs' hinner ih =>
      intro fs hsome hw
      simp only [dite_eq_ite] at hinner ih
      rw [toCarFrames_cons, if_neg hnv, hlk] at hsome
      dsimp only at hsome
      rw [hinner] at hsome
      dsimp only at hsome
      rcases Option.some.inj hsome with rfl
      have hreach := hw c (by simp)
      intro p hp
      rcases List.mem_cons.mp hp with rfl | hp
      · exact hreach
      · refine ih fs' hinner ?_ p hp
        intro x hx
        rcases List.mem_append.mp hx with hx | hx
        · split at hx
          · exact Reach.step hreach hlk (by assumption) hx
          · simp at hx
        · exact hw x (by simp [hx])

/-- The byte stream is exactly the concatenation of the emitted frames. -/
theorem toCarBody_eq_frames (dec : List Nat → Value)
    (st : List (Cid × List Nat)) :
    ∀ (w : List Cid) (V : Finset Cid),
    toCarBody dec st w V = (toCarFrames dec st w V).map
      (fun fs => (fs.map (fun p => frameBytes p.1 p.2)).flatten) := by
  intro w V
  induction w, V using toCarBody.induct dec st with
  | case1 V =>
      rw [toCarBody.eq_def, toCarFrames.eq_def]
      rfl
  | case2 c rest visited hin ih =>
      rw [toCarBody_cons, toCarFrames_cons, if_pos hin, if_pos hin, ih]
  | case3 c rest visited hnv hlk =>
      rw [toCarBody_cons, toCarFrames_cons, if_neg hnv, if_neg hnv, hlk]
      rfl
  | case4 c rest visited hnv d hlk hinner ih =>
      simp only [dite_eq_ite] at hinner ih
      rw [toCarBody_cons, toCarFrames_cons, if_neg hnv, if_neg hnv, hlk]
      dsimp only
      rw [hinner]
      rcases hfr : toCarFrames dec st ((if c.codec = Codec.dagCbor
          then iterLinks (dec d) else []) ++ rest) (insert c visited) with _ | fs
      · rfl
      · rw [hinner, hfr] at ih
        exact absurd ih (by simp)
  | case5 c rest visited hnv d hlk bs hinner ih =>
      simp only [dite_eq_ite] at hinner ih
      rw [toCarBody_cons, toCarFrames_cons, if_neg hnv, if_neg hnv, hlk]
      dsimp only
      rw [hinner]
      rw [hinner] at ih
      rcases hfr : toCarFrames dec st ((if c.codec = Codec.dagCbor
          then iterLinks (dec d) else []) ++ rest) (insert c visited) with _ | fs
      · rw [hfr] at ih
        exact absurd ih (by simp)
      · rw [hfr] at ih
        simp only [Option.map_some'] at ih
        rcases Option.some.inj ih with h
        simp [h]

/-- The specification's description of the emission order, stated on its own:
"each block is written the first time it is discovered during DFS from a
root": depth-first traversal, children pushed in link order, a visited set
suppressing duplicates; only stored blocks are discovered. -/
def discoveryOrder (dec : List Nat → Value) (st : List (Cid × List Nat)) :
    List Cid → Finset Cid → List Cid
  | [], _ => []
  | c :: rest, visited =>
      if hnv : c ∈ visited then discoveryOrder dec st rest visited
      else
        match hlk : lookupBlock st c with
        | none => discoveryOrder dec st rest visited
        | some d =>
            c :: discoveryOrder dec st
              ((if c.codec = Codec.dagCbor then iterLinks (dec d) else [])
                ++ rest) (insert c visited)
termination_by w visited => (((st.map Prod.fst).toFinset \ visited).card, w.length)
decreasing_by
  · exact Prod.Lex.right _ (by simp)
  · exact Prod.Lex.right _ (by simp)
  · apply Prod.Lex.left
    have hck : c ∈ (st.map Prod.fst).toFinset := lookupBlock_mem_keys st c d hlk
    rw [Finset.sdiff_insert]
    apply Finset.card_erase_lt_of_mem
    rw [Finset.mem_sdiff]
    exact ⟨hck, hnv⟩

theorem discoveryOrder_cons (dec : List Nat → Value)
    (st : List (Cid × List Nat)) (c : Cid) (rest : List Cid)
    (visited : Finset Cid) :
    discoveryOrder dec st (c :: rest) visited =
      if c ∈ visited then discoveryOrder dec st rest visited
      else
        match lookupBlock st c with
        | none => discoveryOrder dec st rest visited
        | some d =>
            c :: discoveryOrder dec st
              ((if c.codec = Codec.dagCbor then iterLinks (dec d) else [])
                ++ rest) (insert c visited) := by
  rw [discoveryOrder.eq_def]
  dsimp only
  by_cases h : c ∈ visited
  · rw [dif_pos h, if_pos h]
  · rw [dif_neg h, if_neg h]
    rcases hlk : lookupBlock st c with _ | d <;> simp [hlk]

/-- The CIDs `_to_car` emits are exactly the spec's first-discovery DFS
order. -/
theorem toCarFrames_order (dec : List Nat → Value)
    (st : List (Cid × List Nat)) :
    ∀ (w : List Cid) (V : Finset Cid) (fs : List (Cid × List Nat)),
    toCarFrames dec st w V = some fs →
    fs.map Prod.fst = discoveryOrder dec st w V := by
  intro w V
  induction w, V using toCarFrames.induct dec st with
  | case1 V =>
      intro fs hsome
      rw [toCarFrames.eq_def] at hsome
      dsimp only at hsome
      rcases Option.some.inj hsome with rfl
      rw [discoveryOrder.eq_def]
      rfl
  | case2 c rest visited hin ih =>
      intro fs hsome
      rw [toCarFrames_cons, if_pos hin] at hsome
      rw [discoveryOrder_cons, if_pos hin]
      exact ih fs hsome
  | case3 c rest visited hnv hlk =>
      intro fs hsome
      rw [toCarFrames_cons, if_neg hnv, hlk] at hsome
      dsimp only at hsome
      exact absurd hsome (by simp)
  | case4 c rest visited hnv d hlk hinner ih =>
      intro fs hsome
      simp only [dite_eq_ite] at hinner
      rw [toCarFrames_cons, if_neg hnv, hlk] at hsome
      dsimp only at hsome
      rw [hinner] at hsome
      exact absurd hsome (by simp)
  | case5 c rest visited hnv d hlk fs' hinner ih =>
      intro fs hsome
      simp only [dite_eq_ite] at hinner ih
      rw [toCarFrames_cons, if_neg hnv, hlk] at hsome
      dsimp only at hsome
      rw [hinner] at hsome
      dsimp only at hsome
      rcases Option.some.inj hsome with rfl
      rw [discoveryOrder_cons, if_neg hnv, hlk]
      dsimp only
      simp only [List.map_cons]
      rw [ih fs' hinner]

theorem varintEncode_ne_nil (n : Nat) : varintEncode n ≠ [] := by
  rw [varintEncode]
  split <;> simp

theorem frameBytes_ne_nil (c : Cid) (d : List Nat) : frameBytes c d ≠ [] := by
  unfold frameBytes
  intro h
  rcases List.append_eq_nil.mp h with ⟨h1, _⟩
  rcases List.append_eq_nil.mp h1 with ⟨h2, _⟩
  exact varintEncode_ne_nil _ h2

/-- Frame parsing inverts frame writing: a concatenation of well-formed
frames parses back to exactly the same `(cid, payload)` list. -/
theorem parseFrames_frames : ∀ fs : List (Cid × List Nat),
    parseFrames ((fs.map (fun p => frameBytes p.1 p.2)).flatten) = some fs := by
  intro fs
  induction fs with
  | nil => rw [parseFrames]; simp
  | cons p fs ih =>
      obtain ⟨c, d⟩ := p
      simp only [List.map_cons, List.flatten_cons]
      rw [parseFrames, if_neg (by
        intro h
        rcases List.append_eq_nil.mp h with ⟨h1, _⟩
        exact frameBytes_ne_nil c d h1)]
      rw [show frameBytes c d = varintEncode ((cidBytes c).length + d.length)
          ++ cidBytes c ++ d from rfl]
      rw [List.append_assoc, List.append_assoc, parseVarint_encode]
      dsimp only
      rw [if_pos (by simp)]
      rw [← List.append_assoc, show (cidBytes c).length + d.length
        = (cidBytes c ++ d).length from (List.length_append _ _).symm,
        List.take_left, List.drop_left, parseCid_cidBytes]
      dsimp only
      rw [ih]

/-- Header parsing inverts header writing for a single root. -/
theorem parseHeader_header (root : Cid) :
    parseHeader (carHeader [root]) = some [root] := by
  unfold carHeader parseHeader
  simp only [List.map_cons, List.map_nil, List.flatten_cons, List.flatten_nil,
    List.append_nil]
  rw [parseVarint_encode]
  dsimp only
  rw [show ([root].length : Nat) = 0 + 1 from rfl]
  rw [show parseCidsCount (0 + 1) (cidBytes root)
      = parseCidsCount (0 + 1) (cidBytes root ++ []) from by rw [List.append_nil]]
  rw [parseCidsCount, parseCid_cidBytes]
  dsimp only
  rw [parseCidsCount]
  rfl

/-- Everything reachable from the root gets emitted (DFS from an empty
visited set covers the reachable set). -/
theorem toCarFrames_complete (dec : List Nat → Value)
    (st : List (Cid × List Nat)) (root : Cid) (fs : List (Cid × List Nat))
    (hfs : toCarFrames dec st [root] ∅ = some fs) :
    ∀ c, Reach dec st root c → c ∈ fs.map Prod.fst := by
  obtain ⟨hs, _, hc, hcl⟩ := toCarFrames_spec dec st [root] ∅ fs hfs
  intro c hr
  induction hr with
  | refl =>
      rcases hc root (by simp) with hv | hm
      · exact absurd hv (Finset.not_mem_empty _)
      · exact hm
  | @step cmid ctgt dmid hr hlk hcodec hmem ih =>
      rcases List.mem_map.mp ih with ⟨p, hp, hpc⟩
      obtain ⟨hl2, _⟩ := hs p hp
      rw [hpc, hlk] at hl2
      rcases Option.some.inj hl2 with hpd
      rcases hcl p hp (by rw [hpc]; exact hcodec) ctgt
          (by rw [← hpd]; exact hmem) with hv | hm
      · exact absurd hv (Finset.not_mem_empty _)
      · exact hm

/-- `read_car` inverts `to_car`: parsing the produced archive recovers the
declared root and exactly the emitted frame list. -/
theorem readCar_toCar (dec : List Nat → Value) (st : List (Cid × List Nat))
    (root : Cid) (fs : List (Cid × List Nat))
    (hfs : toCarFrames dec st [root] ∅ = some fs) :
    toCar dec st root = some (varintEncode (carHeader [root]).length
        ++ carHeader [root] ++ (fs.map (fun p => frameBytes p.1 p.2)).flatten)
    ∧ readCar (varintEncode (carHeader [root]).length ++ carHeader [root]
        ++ (fs.map (fun p => frameBytes p.1 p.2)).flatten) = some ([root], fs) := by
  constructor
  · unfold toCar
    rw [toCarBody_eq_frames, hfs]
    rfl
  · unfold readCar
    rw [List.append_assoc, parseVarint_encode]
    dsimp only
    rw [if_pos (by simp)]
    rw [List.take_left, List.drop_left, parseHeader_header, parseFrames_frames]

theorem foldPut_lookup (H : List Nat → List Nat) :
    ∀ (blocks : List (Cid × List Nat)) (m : MapStore) (c : Cid),
    (∀ p ∈ blocks, (⟨p.1.codec, H p.2⟩ : Cid) = p.1) →
    ((c ∉ blocks.map Prod.fst →
        (blocks.foldl (fun acc cd => (putRaw H acc cd.2 cd.1.codec).2) m) c = m c)
      ∧ (∀ dta, (∀ p ∈ blocks, p.1 = c → p.2 = dta) → c ∈ blocks.map Prod.fst →
        (blocks.foldl (fun acc cd => (putRaw H acc cd.2 cd.1.codec).2) m) c
          = some dta)) := by
  intro blocks
  induction blocks with
  | nil => intro m c _; exact ⟨fun _ => rfl, fun dta _ h => absurd h (by simp)⟩
  | cons p blocks ih =>
      intro m c hkeys
      have hkp := hkeys p (by simp)
      have hkeys' : ∀ q ∈ blocks, (⟨q.1.codec, H q.2⟩ : Cid) = q.1 :=
        fun q hq => hkeys q (by simp [hq])
      simp only [List.foldl_cons]
      constructor
      · intro hnm
        have hnc : p.1 ≠ c := by
          intro h
          exact hnm (by simp [h])
        have hnm' : c ∉ blocks.map Prod.fst := by
          intro h
          exact hnm (by simp [h])
        rw [(ih _ c hkeys').1 hnm']
        show (if c = ⟨p.1.codec, H p.2⟩ then some p.2 else m c) = m c
        rw [if_neg (by rw [hkp]; exact fun h => hnc h.symm)]
      · intro dta hdta hmem
        by_cases hmem' : c ∈ blocks.map Prod.fst
        · exact (ih _ c hkeys').2 dta
            (fun q hq => hdta q (by simp [hq])) hmem'
        · rw [(ih _ c hkeys').1 hmem']
          have hpc : p.1 = c := by
            simp only [List.map_cons, List.mem_cons] at hmem
            rcases hmem with h | h
            · exact h.symm
            · exact absurd h hmem'
          show (if c = ⟨p.1.codec, H p.2⟩ then some p.2 else m c) = some dta
          rw [if_pos (by rw [hkp, hpc])]
          rw [hdta p (by simp) hpc]

/-- C5: the stream `to_car(R)` writes after its varint-length-prefixed header
is the concatenation of one frame `varint(len(cid)+len(payload)) + cid +
payload` per block, containing each block reachable from `R` exactly once, in
first-discovery depth-first order. -/
theorem car_stream_spec (dec : List Nat → Value) (st : List (Cid × List Nat))
    (root : Cid) (hroot : ∃ d, lookupBlock st root = some d)
    (hclosed : LinkClosed dec st) :
    ∃ fs : List (Cid × List Nat),
      toCarFrames dec st [root] ∅ = some fs
      ∧ toCar dec st root = some (varintEncode (carHeader [root]).length
          ++ carHeader [root] ++ (fs.map (fun p => frameBytes p.1 p.2)).flatten)
      ∧ (∀ p ∈ fs, lookupBlock st p.1 = some p.2)
      ∧ (fs.map Prod.fst).Nodup
      ∧ (∀ c, c ∈ fs.map Prod.fst ↔ Reach dec st root c)
      ∧ fs.map Prod.fst = discoveryOrder dec st [root] ∅ := by
  obtain ⟨fs, hfs⟩ := toCarFrames_total dec st hclosed [root] ∅
    (by intro c hc; rcases List.mem_singleton.mp hc with rfl; exact Or.inl hroot)
  obtain ⟨hs, hn, _, _⟩ := toCarFrames_spec dec st [root] ∅ fs hfs
  refine ⟨fs, hfs, (readCar_toCar dec st root fs hfs).1,
    fun p hp => (hs p hp).1, hn, ?_,
    toCarFrames_order dec st [root] ∅ fs hfs⟩
  intro c
  constructor
  · intro hm
    rcases List.mem_map.mp hm with ⟨p, hp, hpc⟩
    have hre := toCarFrames_reach dec st root [root] ∅ fs hfs
      (by intro x hx; rcases List.mem_singleton.mp hx with rfl
          exact Reach.refl) p hp
    exact hpc ▸ hre
  · exact toCarFrames_complete dec st root fs hfs c

/-- Witness store for C5 and C2: a single raw block whose digest is its own
payload (the hash parameter is the identity). -/
def singletonStore : List (Cid × List Nat) :=
  [(⟨Codec.raw, [5]⟩, [5])]

theorem singletonStore_root :
    ∃ d, lookupBlock singletonStore ⟨Codec.raw, [5]⟩ = some d :=
  ⟨[5], rfl⟩

theorem singletonStore_closed (dec : List Nat → Value) :
    LinkClosed dec singletonStore := by
  intro c d h hcod c' hc'
  by_cases hceq : (⟨Codec.raw, [5]⟩ : Cid) = c
  · rw [← hceq] at hcod
    exact absurd hcod (by decide)
  · have hnone : lookupBlock singletonStore c = none := by
      show (if (⟨Codec.raw, [5]⟩ : Cid) = c then some [5]
          else lookupBlock [] c) = none
      rw [if_neg hceq]
      rfl
    rw [hnone] at h
    exact absurd h (by simp)

/-- Witness for C5 at the one-block store. -/
theorem car_stream_spec_witness :
    (∃ d, lookupBlock singletonStore ⟨Codec.raw, [5]⟩ = some d)
    ∧ LinkClosed (fun _ => Value.scalar []) singletonStore
    ∧ ∃ fs : List (Cid × List Nat),
      toCarFrames (fun _ => Value.scalar []) singletonStore
          [⟨Codec.raw, [5]⟩] ∅ = some fs
      ∧ toCar (fun _ => Value.scalar []) singletonStore ⟨Codec.raw, [5]⟩
          = some (varintEncode (carHeader [⟨Codec.raw, [5]⟩]).length
              ++ carHeader [⟨Codec.raw, [5]⟩]
              ++ (fs.map (fun p => frameBytes p.1 p.2)).flatten)
      ∧ (∀ p ∈ fs, lookupBlock singletonStore p.1 = some p.2)
      ∧ (fs.map Prod.fst).Nodup
      ∧ (∀ c, c ∈ fs.map Prod.fst
          ↔ Reach (fun _ => Value.scalar []) singletonStore ⟨Codec.raw, [5]⟩ c)
      ∧ fs.map Prod.fst = discoveryOrder (fun _ => Value.scalar [])
          singletonStore [⟨Codec.raw, [5]⟩] ∅ :=
  ⟨singletonStore_root, singletonStore_closed _,
    car_stream_spec (fun _ => Value.scalar []) singletonStore ⟨Codec.raw, [5]⟩
      singletonStore_root (singletonStore_closed _)⟩

/-- C2: importing `to_car(R)` into a fresh empty `MappingCAStore` makes every
block reachable from `R` retrievable by `get_raw` with byte-identical
content, and `import_car` returns the normalized root list `[R]`.  The source
store must be well-formed (each CID's digest is the hash of its payload, with
the same hash the destination uses) and closed under links reachable from
`R`. -/
theorem car_import_roundtrip (H : List Nat → List Nat)
    (dec : List Nat → Value) (st : List (Cid × List Nat)) (root : Cid)
    (hwf : ∀ c dta, lookupBlock st c = some dta → c = ⟨c.codec, H dta⟩)
    (hroot : ∃ d, lookupBlock st root = some d)
    (hclosed : LinkClosed dec st) :
    ∃ car dest, toCar dec st root = some car
      ∧ importCar H emptyStore car = some ([root], dest)
      ∧ ∀ c, Reach dec st root c → getRaw dest c = lookupBlock st c := by
  obtain ⟨fs, hfs⟩ := toCarFrames_total dec st hclosed [root] ∅
    (by intro c hc; rcases List.mem_singleton.mp hc with rfl; exact Or.inl hroot)
  obtain ⟨hs, hn, hc, hcl⟩ := toCarFrames_spec dec st [root] ∅ fs hfs
  obtain ⟨htc, hrc⟩ := readCar_toCar dec st root fs hfs
  refine ⟨_, fs.foldl (fun acc cd => (putRaw H acc cd.2 cd.1.codec).2)
    emptyStore, htc, ?_, ?_⟩
  · unfold importCar
    rw [hrc]
    rfl
  · intro c hr
    have hmem := toCarFrames_complete dec st root fs hfs c hr
    rcases List.mem_map.mp hmem with ⟨p, hp, hpc⟩
    have hl := (hs p hp).1
    rw [hpc] at hl
    have hkeys : ∀ q ∈ fs, (⟨q.1.codec, H q.2⟩ : Cid) = q.1 := by
      intro q hq
      exact (hwf q.1 q.2 (hs q hq).1).symm
    have hfold := (foldPut_lookup H fs emptyStore c hkeys).2 p.2
      (fun q hq hqc => by
        have hlq := (hs q hq).1
        rw [hqc, hl] at hlq
        exact (Option.some.inj hlq).symm) hmem
    show getRaw _ c = _
    unfold getRaw normalizeCid
    rw [hfold, hl]

theorem singletonStore_wf :
    ∀ c dta, lookupBlock singletonStore c = some dta →
      c = ⟨c.codec, (fun b : List Nat => b) dta⟩ := by
  intro c dta h
  by_cases hceq : (⟨Codec.raw, [5]⟩ : Cid) = c
  · have h5 : some ([5] : List Nat) = some dta := by
      rw [← h]
      show some [5] = (if (⟨Codec.raw, [5]⟩ : Cid) = c then some [5]
        else lookupBlock [] c)
      rw [if_pos hceq]
    rw [← hceq, ← Option.some.inj h5]
  · have hnone : lookupBlock singletonStore c = none := by
      show (if (⟨Codec.raw, [5]⟩ : Cid) = c then some [5]
          else lookupBlock [] c) = none
      rw [if_neg hceq]
      rfl
    rw [hnone] at h
    exact absurd h (by simp)

/-- Witness for C2 at the one-block store, with the identity hash. -/
theorem car_import_roundtrip_witness :
    (∀ c dta, lookupBlock singletonStore c = some dta →
      c = ⟨c.codec, (fun b : List Nat => b) dta⟩)
    ∧ (∃ d, lookupBlock singletonStore ⟨Codec.raw, [5]⟩ = some d)
    ∧ LinkClosed (fun _ => Value.scalar []) singletonStore
    ∧ ∃ car dest,
      toCar (fun _ => Value.scalar []) singletonStore ⟨Codec.raw, [5]⟩
        = some car
      ∧ importCar (fun b : List Nat => b) emptyStore car
          = some ([⟨Codec.raw, [5]⟩], dest)
      ∧ ∀ c, Reach (fun _ => Value.scalar []) singletonStore ⟨Codec.raw, [5]⟩ c →
          getRaw dest c = lookupBlock singletonStore c :=
  ⟨singletonStore_wf, singletonStore_root, singletonStore_closed _,
    car_import_roundtrip (fun b : List Nat => b) (fun _ => Value.scalar [])
      singletonStore ⟨Codec.raw, [5]⟩ singletonStore_wf singletonStore_root
      (singletonStore_closed _)⟩

/-- `ContentAddressableStore.put`: bytes go through `put_raw` under the raw
codec, dag-cbor-encodable values are encoded (the parameter `enc` models
`dag_cbor.encode`) and stored under the dag-cbor codec. -/
def put (H : List Nat → List Nat) (enc : Value → List Nat) (m : MapStore)
    (v : List Nat ⊕ Value) : Cid × MapStore :=
  match v with
  | .inl b => putRaw H m b Codec.raw
  | .inr s => putRaw H m (enc s) Codec.dagCbor

/-- `ContentAddressableStore.get`: fetch the raw bytes and dispatch on the
CID's codec — raw bytes pass through, dag-cbor payloads are decoded (the
parameter `decv` models `dag_cbor.decode`); an absent block is a `KeyError`
(`none`). -/
def get (decv : List Nat → Option Value) (m : MapStore) (c : Cid) :
    Option (List Nat ⊕ Value) :=
  match getRaw m c with
  | none => none
  | some data =>
      match c.codec with
      | Codec.raw => some (.inl data)
      | Codec.dagCbor => (decv data).map .inr

/-- C3: `get(put(v)) == v` on a `MappingCAStore`, for both byte values and
structured values, with bytes stored under the raw codec and structured
values under dag-cbor — assuming the dag-cbor library round-trips the stored
value. -/
theorem store_get_put (H : List Nat → List Nat) (enc : Value → List Nat)
    (decv : List Nat → Option Value) (m : MapStore) (v : List Nat ⊕ Value)
    (hrt : ∀ s : Value, v = Sum.inr s → decv (enc s) = some s) :
    get decv (put H enc m v).2 (put H enc m v).1 = some v
    ∧ (∀ b, v = Sum.inl b → (put H enc m v).1.codec = Codec.raw)
    ∧ (∀ s, v = Sum.inr s → (put H enc m v).1.codec = Codec.dagCbor) := by
  cases v with
  | inl b =>
      refine ⟨?_, fun _ _ => rfl, fun s hs => absurd hs (by simp)⟩
      show get decv (putRaw H m b Codec.raw).2 (putRaw H m b Codec.raw).1
        = some (.inl b)
      unfold get getRaw putRaw normalizeCid
      dsimp only
      rw [if_pos rfl]
  | inr s =>
      refine ⟨?_, fun b hb => absurd hb (by simp), fun _ _ => rfl⟩
      show get decv (putRaw H m (enc s) Codec.dagCbor).2
        (putRaw H m (enc s) Codec.dagCbor).1 = some (.inr s)
      unfold get getRaw putRaw normalizeCid
      dsimp only
      rw [if_pos rfl]
      dsimp only
      rw [hrt s rfl]
      rfl

/-- Witness for C3 at a concrete structured value and a decoder that inverts
the encoder on it. -/
theorem store_get_put_witness :
    (∀ s : Value, (Sum.inr (Value.scalar [5]) : List Nat ⊕ Value) = Sum.inr s →
      (fun _ : List Nat => some (Value.scalar [5]))
        ((fun _ : Value => ([9] : List Nat)) s) = some s)
    ∧ get (fun _ : List Nat => some (Value.scalar [5]))
        (put (fun b : List Nat => b) (fun _ : Value => ([9] : List Nat))
          emptyStore (Sum.inr (Value.scalar [5]))).2
        (put (fun b : List Nat => b) (fun _ : Value => ([9] : List Nat))
          emptyStore (Sum.inr (Value.scalar [5]))).1
      = some (Sum.inr (Value.scalar [5])) := by
  have hp : ∀ s : Value,
      (Sum.inr (Value.scalar [5]) : List Nat ⊕ Value) = Sum.inr s →
      (fun _ : List Nat => some (Value.scalar [5]))
        ((fun _ : Value => ([9] : List Nat)) s) = some s := by
    intro s h
    cases h
    rfl
  exact ⟨hp, (store_get_put (fun b : List Nat => b)
    (fun _ : Value => ([9] : List Nat))
    (fun _ : List Nat => some (Value.scalar [5]))
    emptyStore (Sum.inr (Value.scalar [5])) hp).1⟩

end ContentStore

namespace ZarrStore

open ContentStore

/-- Python dict assignment `d[k] = v`: overwrite in place if the key exists
(keeping its insertion position), else append. -/
def dictSet {α β : Type} [DecidableEq α] : List (α × β) → α → β → List (α × β)
  | [], k, v => [(k, v)]
  | (k', v') :: rest, k, v =>
      if k' = k then (k', v) :: rest else (k', v') :: dictSet rest k v

/-- An index entry of the zarr store: a CID pointing to a CAS block, or (for
a reserved inline key) a structured value stored directly in the index. -/
def IdxVal : Type := Cid ⊕ Value

/-- `IPFSZarrStore.getitems`'s first loop over the requested keys: each key is
split into path segments and resolved in the index (`HamtWrapper.get`; a
missing key raises `KeyError`, modelled as `none`); an inline key's value is
encoded with its inline codec into the result mapping, while every other key
must hold a CID, which is recorded in `cid_to_key_map` — a dict keyed by the
CID, so a repeated CID keeps only the key processed last — and appended to the
list to fetch.  `splitKey` models `key.split(self.sep)`, `isInl` and `enc`
model the reserved-key table `inline_objects` from the missing
`hamt_wrapper.py`. -/
def getitemsLoop (splitKey : String → List String) (isInl : String → Bool)
    (enc : Value → List Nat) (idx : List String → Option IdxVal) :
    List String → List (Cid × String) → List (String × List Nat) → List Cid →
    Option (List (Cid × String) × List (String × List Nat) × List Cid)
  | [], c2k, k2b, toGet => some (c2k, k2b, toGet)
  | key :: rest, c2k, k2b, toGet =>
      match idx (splitKey key) with
      | none => none
      | some gv =>
          if isInl ((splitKey key).getLastD "") then
            match gv with
            | .inr s => getitemsLoop splitKey isInl enc idx rest
                c2k (dictSet k2b key (enc s)) toGet
            | .inl _ => none
          else
            match gv with
            | .inl cid => getitemsLoop splitKey isInl enc idx rest
                (dictSet c2k cid key) k2b (toGet ++ [cid])
            | .inr _ => none

/-- `IPFSZarrStore.getitems(keys)`: after the key loop, the CID-backed subset
is fetched concurrently (`IPFSContentStore.getitems` returns one entry per
requested CID, modelled by `fetch`), and the result mapping gains one entry
per *distinct* CID, bound to the last key that mapped to it. -/
def getitems (splitKey : String → List String) (isInl : String → Bool)
    (enc : Value → List Nat) (idx : List String → Option IdxVal)
    (fetch : Cid → List Nat) (keys : List String) :
    Option (List (String × List Nat)) :=
  match getitemsLoop splitKey isInl enc idx keys [] [] [] with
  | none => none
  | some (c2k, k2b, _) =>
      some (c2k.foldl (fun acc p => dictSet acc p.2 (fetch p.1)) k2b)

/-- The index of the failing input: two distinct present keys `"a"` and `"b"`
bound to the same CID (two chunks with identical content deduplicate to one
block). -/
def dupIdx : List String → Option IdxVal := fun parts =>
  if parts = ["a"] then some (Sum.inl ⟨Codec.raw, [0]⟩)
  else if parts = ["b"] then some (Sum.inl ⟨Codec.raw, [0]⟩)
  else none

/-- C7: evaluation of `getitems` at the failing input: both requested keys are
present in the index and no error is raised, yet the result contains only
`"b"` — the key `"a"` is silently absent because `cid_to_key_map` is keyed by
the shared CID. -/
theorem getitems_silent_omission :
    getitems (fun k => [k]) (fun _ => false) (fun _ => [])
      dupIdx (fun _ => [9]) ["a", "b"]
      = some [("b", [9])]
    ∧ "a" ∈ (["a", "b"] : List String)
    ∧ "a" ∉ ([("b", [9])] : List (String × List Nat)).map Prod.fst := by
  refine ⟨?_, by decide, by decide⟩
  rfl

end ZarrStore

namespace HamtStore

open ContentStore

/-- Association-list lookup, the HAMT's `__getitem__` view (keys are unique
under `dictSet`). -/
def lookupKey : List (String × Cid) → String → Option Cid
  | [], _ => none
  | (k', c) :: rest, k => if k' = k then some c else lookupKey rest k

/-- The observable state of an `IPLDStore` from `ipldstore/ipldstore.py`: its
own `read_only` flag, the mode of the underlying `py_hamt` HAMT (an external
dependency, modelled at its interface: a mapping plus a read-only flag whose
mutators raise when it is set), the HAMT's key→CID mapping, and the
`threading.Lock` (held/free; acquiring a held lock from the same thread
deadlocks, modelled as `blocked`). -/
structure St where
  readOnly : Bool
  hamtReadOnly : Bool
  hamt : List (String × Cid)
  locked : Bool
deriving DecidableEq

/-- `IPLDStore.__init__(root_cid, read_only)`: note that the constructor
passes only `root_node_id` to `HAMT(...)` and never propagates `read_only`,
so the HAMT starts in py_hamt's constructor default mode — writable. -/
def init (hamt0 : List (String × Cid)) (readOnly : Bool) : St :=
  { readOnly := readOnly, hamtReadOnly := false, hamt := hamt0,
    locked := false }

/-- `make_read_only`: under the lock, set the store flag and switch the HAMT
to read-only. -/
def makeReadOnly (s : St) : Option St :=
  if s.locked then none
  else some { s with readOnly := true, hamtReadOnly := true }

/-- `enable_write`: under the lock, clear both flags. -/
def enableWrite (s : St) : Option St :=
  if s.locked then none
  else some { s with readOnly := false, hamtReadOnly := false }

/-- Result of `__setitem__`/`__delitem__`: success, the HAMT's "read-only"
exception, or deadlock on the lock. -/
inductive SetResult where
  | ok : St → SetResult
  | hamtError : St → SetResult
  | blocked : SetResult
deriving DecidableEq

/-- `IPLDStore.__setitem__(key, value)`: the lock is taken only when the
store is *not* read-only; the value is uploaded (`store.save`, an external
network write returning a CID, modelled by `save`) and the CID assigned into
the HAMT, which raises if the HAMT is read-only — in that case `__setitem__`
has no `try`/`finally`, so a writable store's lock stays held.  No mode check
of the store's own `read_only` flag guards the mutation. -/
def setitem (save : List Nat → Cid) (s : St) (k : String) (v : List Nat) :
    SetResult :=
  if s.readOnly then
    if s.hamtReadOnly then .hamtError s
    else .ok { s with hamt := ZarrStore.dictSet s.hamt k (save v) }
  else
    if s.locked then .blocked
    else
      if s.hamtReadOnly then .hamtError { s with locked := true }
      else .ok { s with hamt := ZarrStore.dictSet s.hamt k (save v), locked := false }

/-- Result of `__getitem__`: the loaded bytes, a `KeyError`, or deadlock. -/
inductive GetResult where
  | found : List Nat → St → GetResult
  | keyErr : St → GetResult
  | blocked : GetResult
deriving DecidableEq

/-- `IPLDStore.__getitem__(key)`: lock when writable; on `KeyError` from the
HAMT the lock is explicitly released before the exception is re-raised; on
success the block is fetched (`store.load`, modelled by `load`) and the lock
released. -/
def getitem (load : Cid → List Nat) (s : St) (k : String) : GetResult :=
  if s.readOnly then
    match lookupKey s.hamt k with
    | none => .keyErr s
    | some c => .found (load c) s
  else
    if s.locked then .blocked
    else
      match lookupKey s.hamt k with
      | none => .keyErr { s with locked := false }
      | some c => .found (load c) { s with locked := false }

/-- C8 (counterexample): a store *constructed* read-only (`IPLDStore()`
defaults to `read_only=True`) accepts `__setitem__` without any error: the
HAMT was never switched to read-only, so the index silently changes. -/
theorem readonly_set_counterexample :
    setitem (fun v => ⟨Codec.raw, v⟩) (init [] true) "a" [1]
      = SetResult.ok { readOnly := true, hamtReadOnly := false, hamt := [("a", ⟨Codec.raw, [1]⟩)], locked := false }
    ∧ (init [] true).readOnly = true
    ∧ ([("a", (⟨Codec.raw, [1]⟩ : Cid))] : List (String × Cid)) ≠ [] := by
  refine ⟨rfl, rfl, by decide⟩

/-- C8 (amended): a mutation attempt fails — with the HAMT's own error — and
leaves the index unchanged exactly when the *HAMT* is read-only, which holds
after `make_read_only()` but not after merely constructing the store with
`read_only=True`: such a store accepts mutations silently. -/
theorem mode_enforcement (save : List Nat → Cid) (s : St) (k : String)
    (v : List Nat) :
    (s.hamtReadOnly = true → s.locked = false →
        ∃ s', setitem save s k v = SetResult.hamtError s' ∧ s'.hamt = s.hamt)
    ∧ (∀ s', makeReadOnly s = some s' →
        s'.hamtReadOnly = true ∧ s'.readOnly = true)
    ∧ ((init s.hamt true).hamtReadOnly = false
        ∧ setitem save (init s.hamt true) k v = SetResult.ok
            { readOnly := true, hamtReadOnly := false, hamt := ZarrStore.dictSet s.hamt k (save v), locked := false })
    ∧ (s.locked = false → s.readOnly = false → s.hamtReadOnly = false →
        setitem save s k v = SetResult.ok
          { s with hamt := ZarrStore.dictSet s.hamt k (save v), locked := false }) := by
  refine ⟨?_, ?_, ⟨rfl, rfl⟩, ?_⟩
  · intro hro hl
    unfold setitem
    by_cases h : s.readOnly
    · rw [if_pos h, if_pos hro]
      exact ⟨s, rfl, rfl⟩
    · rw [if_neg h, if_neg (by rw [hl]; simp), if_pos hro]
      exact ⟨{ s with locked := true }, rfl, rfl⟩
  · intro s' hm
    unfold makeReadOnly at hm
    split at hm
    · exact absurd hm (by simp)
    · rcases Option.some.inj hm with rfl
      exact ⟨rfl, rfl⟩
  · intro hl hro hh
    unfold setitem
    rw [if_neg (by rw [hro]; simp), if_neg (by rw [hl]; simp),
      if_neg (by rw [hh]; simp)]

/-- Witness for C8's amended mode enforcement at a concrete store. -/
theorem mode_enforcement_witness :
    ((init [] false : St).hamtReadOnly = true → (init [] false : St).locked = false →
        ∃ s', setitem (fun v => ⟨Codec.raw, v⟩) (init [] false) "k" [2]
            = SetResult.hamtError s' ∧ s'.hamt = (init [] false : St).hamt)
    ∧ (∀ s', makeReadOnly (init [] false) = some s' →
        s'.hamtReadOnly = true ∧ s'.readOnly = true)
    ∧ ((init (init [] false : St).hamt true).hamtReadOnly = false
        ∧ setitem (fun v => ⟨Codec.raw, v⟩) (init (init [] false : St).hamt true) "k" [2]
          = SetResult.ok
            { readOnly := true, hamtReadOnly := false, hamt := ZarrStore.dictSet (init [] false : St).hamt "k" ((fun v => (⟨Codec.raw, v⟩ : Cid)) [2]), locked := false })
    ∧ ((init [] false : St).locked = false → (init [] false : St).readOnly = false →
        (init [] false : St).hamtReadOnly = false →
        setitem (fun v => ⟨Codec.raw, v⟩) (init [] false) "k" [2]
          = SetResult.ok
            { (init [] false : St) with hamt := ZarrStore.dictSet (init [] false : St).hamt "k" ((fun v => (⟨Codec.raw, v⟩ : Cid)) [2]), locked := false }) :=
  mode_enforcement (fun v => ⟨Codec.raw, v⟩) (init [] false) "k" [2]

/-- C10: `__getitem__` on a missing key, in writable mode with the lock free,
raises `KeyError` with the lock released and the whole state (in particular
the index) unchanged, and subsequent lock-acquiring operations do not
block. -/
theorem getitem_missing (load : Cid → List Nat) (s : St) (k : String)
    (hro : s.readOnly = false) (hl : s.locked = false)
    (habs : lookupKey s.hamt k = none) :
    getitem load s k = GetResult.keyErr s
    ∧ (∀ save k2 v2, setitem save s k2 v2 ≠ SetResult.blocked)
    ∧ (∀ k2, getitem load s k2 ≠ GetResult.blocked) := by
  have hseq : { s with locked := false } = s := by
    cases s
    simp only at hl
    rw [hl]
  refine ⟨?_, ?_, ?_⟩
  · unfold getitem
    rw [if_neg (by rw [hro]; simp), if_neg (by rw [hl]; simp), habs, hseq]
  · intro save k2 v2
    unfold setitem
    rw [if_neg (by rw [hro]; simp), if_neg (by rw [hl]; simp)]
    split <;> simp
  · intro k2
    unfold getitem
    rw [if_neg (by rw [hro]; simp), if_neg (by rw [hl]; simp)]
    rcases lookupKey s.hamt k2 with _ | c <;> simp

/-- Witness for C10 at a concrete empty writable store. -/
theorem getitem_missing_witness :
    ((init [] false : St).readOnly = false
      ∧ (init [] false : St).locked = false
      ∧ lookupKey (init [] false : St).hamt "x" = none)
    ∧ (getitem (fun _ => []) (init [] false) "x"
          = GetResult.keyErr (init [] false)
        ∧ (∀ save k2 v2, setitem save (init [] false) k2 v2
            ≠ SetResult.blocked)
        ∧ (∀ k2, getitem (fun _ => []) (init [] false) k2
            ≠ GetResult.blocked)) :=
  ⟨⟨rfl, rfl, rfl⟩,
    getitem_missing (fun _ => []) (init [] false) "x" rfl rfl rfl⟩

end HamtStore

namespace IterModel

open ContentStore

/-- Write one cell of a heap of HAMT objects. -/
def writeHeap (h : Nat → List (String × Cid)) (r0 : Nat)
    (d : List (String × Cid)) : Nat → List (String × Cid) :=
  fun r => if r = r0 then d else h r

/-- A heap of HAMT objects, to make the aliasing visible: `IPLDStore.__iter__`
deep-copies the HAMT and iterates the copy, so the iterator must read a
*different* heap cell than the one the store mutates.  `hamtRef` is the
store's own HAMT; references `≥ next` are unallocated. -/
structure St where
  heap : Nat → List (String × Cid)
  next : Nat
  hamtRef : Nat
  readOnly : Bool
  locked : Bool

/-- `IPLDStore.__iter__`: under the lock (when writable) the HAMT is
deep-copied into a fresh object and an iterator over the copy is returned;
the iterator is identified by the copy's reference. -/
def iterStore (s : St) : Option (Nat × St) :=
  if s.readOnly then
    some (s.next, { s with heap := writeHeap s.heap s.next (s.heap s.hamtRef), next := s.next + 1 })
  else if s.locked then none
  else
    some (s.next, { s with heap := writeHeap s.heap s.next (s.heap s.hamtRef), next := s.next + 1 })

/-- `IPLDStore.__setitem__` on the successful path (the HAMT accepts the
write): the store's own HAMT object is updated in place; a held lock on a
writable store blocks. -/
def setitem (save : List Nat → Cid) (s : St) (k : String) (v : List Nat) :
    Option St :=
  if ¬ s.readOnly ∧ s.locked then none
  else
    some { s with heap := writeHeap s.heap s.hamtRef (ZarrStore.dictSet (s.heap s.hamtRef) k (save v)) }

/-- Association-list delete: `del hamt[key]`. -/
def dictDel : List (String × Cid) → String → List (String × Cid)
  | [], _ => []
  | (k', c) :: rest, k => if k' = k then rest else (k', c) :: dictDel rest k

/-- `IPLDStore.__delitem__` on the successful path. -/
def delitem (s : St) (k : String) : Option St :=
  if ¬ s.readOnly ∧ s.locked then none
  else
    some { s with heap := writeHeap s.heap s.hamtRef (dictDel (s.heap s.hamtRef) k) }

/-- The keys an iterator over HAMT object `ref` yields. -/
def iterKeys (s : St) (ref : Nat) : List String := (s.heap ref).map Prod.fst

/-- C9: the key sequence of an iterator obtained from `__iter__` is fixed by
the snapshot: any later `__setitem__` or `__delitem__` on the store leaves
the keys that iterator yields unchanged (the copy is a distinct heap object
from the store's own HAMT). -/
theorem iter_snapshot (save : List Nat → Cid) (s : St)
    (href : s.hamtRef < s.next) :
    ∀ it s1, iterStore s = some (it, s1) →
      iterKeys s1 it = (s.heap s.hamtRef).map Prod.fst
      ∧ (∀ k v s2, setitem save s1 k v = some s2 →
          iterKeys s2 it = iterKeys s1 it)
      ∧ (∀ k s2, delitem s1 k = some s2 → iterKeys s2 it = iterKeys s1 it) := by
  intro it s1 hiter
  unfold iterStore at hiter
  have hres : it = s.next
      ∧ s1 = { s with heap := writeHeap s.heap s.next (s.heap s.hamtRef), next := s.next + 1 } := by
    split at hiter
    · have h := Option.some.inj hiter
      exact ⟨(congrArg Prod.fst h).symm, (congrArg Prod.snd h).symm⟩
    · split at hiter
      · exact absurd hiter (by simp)
      · have h := Option.some.inj hiter
        exact ⟨(congrArg Prod.fst h).symm, (congrArg Prod.snd h).symm⟩
  obtain ⟨hit, hs1⟩ := hres
  subst hit
  subst hs1
  have hkeys : iterKeys { s with heap := writeHeap s.heap s.next (s.heap s.hamtRef), next := s.next + 1 } s.next
      = (s.heap s.hamtRef).map Prod.fst := by
    simp [iterKeys, writeHeap]
  refine ⟨hkeys, ?_, ?_⟩
  · intro k v s2 hset
    unfold setitem at hset
    split at hset
    · exact absurd hset (by simp)
    · have h := (Option.some.inj hset).symm
      subst h
      simp only [iterKeys, writeHeap]
      rw [if_neg (show ¬ s.next = s.hamtRef by omega)]
  · intro k s2 hdel
    unfold delitem at hdel
    split at hdel
    · exact absurd hdel (by simp)
    · have h := (Option.some.inj hdel).symm
      subst h
      simp only [iterKeys, writeHeap]
      rw [if_neg (show ¬ s.next = s.hamtRef by omega)]

/-- Witness for C9 at a concrete writable store holding one key. -/
theorem iter_snapshot_witness :
    (({ heap := fun _ => [("a", (⟨Codec.raw, [0]⟩ : Cid))], next := 1, hamtRef := 0, readOnly := false, locked := false } : St).hamtRef
        < ({ heap := fun _ => [("a", (⟨Codec.raw, [0]⟩ : Cid))], next := 1, hamtRef := 0, readOnly := false, locked := false } : St).next)
    ∧ ∀ it s1, iterStore { heap := fun _ => [("a", (⟨Codec.raw, [0]⟩ : Cid))], next := 1, hamtRef := 0, readOnly := false, locked := false } = some (it, s1) →
        iterKeys s1 it = (({ heap := fun _ => [("a", (⟨Codec.raw, [0]⟩ : Cid))], next := 1, hamtRef := 0, readOnly := false, locked := false } : St).heap 0).map Prod.fst
        ∧ (∀ k v s2, setitem (fun v => ⟨Codec.raw, v⟩) s1 k v = some s2 →
            iterKeys s2 it = iterKeys s1 it)
        ∧ (∀ k s2, delitem s1 k = some s2 → iterKeys s2 it = iterKeys s1 it) :=
  ⟨by decide,
    iter_snapshot (fun v => ⟨Codec.raw, v⟩)
      { heap := fun _ => [("a", (⟨Codec.raw, [0]⟩ : Cid))], next := 1, hamtRef := 0, readOnly := false, locked := false } (by decide)⟩

end IterModel
